import Mathlib

/-!
Verification of the contributor-metrics aggregation scripts
(`calculate_rankings.py`, `calculate_contributor_history.py`,
`calculate_stargazers_history.py`) against their specification.

Modelling conventions (shallow embedding):
* Python `str` is Lean `String`; Python's lexicographic string
  comparison is modelled on the underlying character list
  (`charListLe`), which matches Python's code-point comparison and
  is kernel-computable.
* A parsed `datetime.datetime` is modelled as a 6-tuple
  (year, month, day, hour, minute, second) under lexicographic order
  (`DT`), exactly how Python `datetime` compares; a `datetime.date`
  is a 3-tuple (`Day`).
* A Python `dict` is modelled as an insertion-ordered association
  list (`List (key × value)`) with distinct keys: assignment to an
  existing key replaces the value in place, assignment to a fresh key
  appends (`setA`), which reproduces Python dict iteration order.
* A date-string field of a record is `Option DStr`: `none` models an
  absent / `null` / empty-string value (every code path tests
  truthiness of such fields before parsing), `DStr.bad` a present but
  unparseable string, and `DStr.good t` a string parsing to `t`.
* An `author` field is `Option AuthorF`: `none` models an absent or
  `null` (or falsy) value, `AuthorF.obj login` a JSON object with an
  optional `login` (`none` covering an absent or empty login), and
  `AuthorF.junk` a truthy non-object value, on which the scripts'
  attribute access `["author"].get("login")` raises; processing
  functions therefore return `Except Unit _`, with `Except.error ()`
  modelling an uncaught exception.  Other ill-typed JSON shapes
  (non-object nodes, falsy non-object authors, ill-typed comment
  wrappers) are not modelled.
* Top-level file contents are `Option FileData`: `none` models a
  missing file or invalid JSON (the caught `FileNotFoundError` /
  `JSONDecodeError` branch), `FileData.jlist` a top-level array and
  `FileData.jobj` an object with an optional `"data"` key.
-/

namespace ContribMetrics

/-! ## Strings: Python lexicographic comparison on code points -/

/-- Lexicographic comparison of character lists, mirroring Python's
`str` ordering on code points. -/
def charListLe : List Char → List Char → Bool
  | [], _ => true
  | _ :: _, [] => false
  | a :: as, b :: bs => if a < b then true else if b < a then false else charListLe as bs

/-- Python `a <= b` on strings. -/
def strLe (a b : String) : Bool := charListLe a.data b.data

theorem charListLe_total (a b : List Char) : charListLe a b = true ∨ charListLe b a = true := by
  induction a generalizing b with
  | nil => left; rfl
  | cons x xs ih =>
    cases b with
    | nil => right; rfl
    | cons y ys =>
      rcases lt_trichotomy x y with h | h | h
      · left; simp [charListLe, h]
      · subst h
        rcases ih ys with h2 | h2
        · left; simp [charListLe, lt_irrefl, h2]
        · right; simp [charListLe, lt_irrefl, h2]
      · right; simp [charListLe, h]

theorem charListLe_trans {a b c : List Char} (h1 : charListLe a b = true)
    (h2 : charListLe b c = true) : charListLe a c = true := by
  induction a generalizing b c with
  | nil => rfl
  | cons x xs ih =>
    cases b with
    | nil => simp [charListLe] at h1
    | cons y ys =>
      cases c with
      | nil => simp [charListLe] at h2
      | cons z zs =>
        simp only [charListLe] at h1 h2 ⊢
        by_cases hxy : x < y
        · have hyz : ¬ z < y := by
            intro hzy
            by_cases hzy2 : y < z
            · exact absurd hzy (asymm hzy2)
            · simp [hzy2, hzy] at h2
          by_cases hyz2 : y < z
          · have hxz : x < z := lt_trans hxy hyz2
            simp [hxz]
          · have : y = z := le_antisymm (not_lt.mp hyz) (not_lt.mp hyz2)
            subst this
            simp [hxy]
        · by_cases hyx : y < x
          · simp [hxy, hyx] at h1
          · have hxy2 : x = y := le_antisymm (not_lt.mp hyx) (not_lt.mp hxy)
            subst hxy2
            by_cases hxz : x < z
            · simp [hxz]
            · by_cases hzx : z < x
              · simp [hxz, hzx] at h2
              · have : x = z := le_antisymm (not_lt.mp hzx) (not_lt.mp hxz)
                subst this
                simp only [lt_irrefl, if_false] at h1 h2 ⊢
                exact ih h1 h2

theorem charListLe_antisymm {a b : List Char} (h1 : charListLe a b = true)
    (h2 : charListLe b a = true) : a = b := by
  induction a generalizing b with
  | nil =>
    cases b with
    | nil => rfl
    | cons y ys => simp [charListLe] at h2
  | cons x xs ih =>
    cases b with
    | nil => simp [charListLe] at h1
    | cons y ys =>
      simp only [charListLe] at h1 h2
      by_cases hxy : x < y
      · simp [hxy, asymm hxy] at h2
      · by_cases hyx : y < x
        · simp [hxy, hyx] at h1
        · have hx : x = y := le_antisymm (not_lt.mp hyx) (not_lt.mp hxy)
          subst hx
          simp only [lt_irrefl, if_false] at h1 h2
          rw [ih h1 h2]

theorem strLe_total (a b : String) : strLe a b = true ∨ strLe b a = true :=
  charListLe_total a.data b.data

theorem strLe_trans {a b c : String} (h1 : strLe a b = true) (h2 : strLe b c = true) :
    strLe a c = true :=
  charListLe_trans h1 h2

theorem strLe_antisymm {a b : String} (h1 : strLe a b = true) (h2 : strLe b a = true) :
    a = b := by
  cases a with
  | mk da => cases b with
    | mk db => exact congrArg String.mk (charListLe_antisymm h1 h2)

/-- Python `s.endswith(suffix)`. -/
def strEndsWith (s suffix : String) : Bool := suffix.data.isSuffixOf s.data

/-! ## Bot exclusion (calculate_rankings.py, BOT_USERS and _is_bot) -/

/-- The module-level `BOT_USERS` set of `calculate_rankings.py`. -/
def BOT_USERS : List String :=
  ["dependabot[bot]", "github-actions[bot]", "github-actions", "renovate[bot]",
   "codecov[bot]", "codecov", "pre-commit-ci[bot]", "mergify[bot]", "stale",
   "awf-autoware-bot"]

/-- `RankingCalculator._is_bot`. -/
def is_bot (author : String) : Bool :=
  decide (author ∈ BOT_USERS) || strEndsWith author "[bot]"

/-! ## Dates -/

/-- A parsed `datetime.datetime`: (year, month, day, hour, minute, second)
compared lexicographically, exactly as Python datetimes compare. -/
abbrev DT := Lex (Nat × Lex (Nat × Lex (Nat × Lex (Nat × Lex (Nat × Nat)))))

def mkDT (y mo d h mi s : Nat) : DT :=
  toLex (y, toLex (mo, toLex (d, toLex (h, toLex (mi, s)))))

/-- A `datetime.date`: (year, month, day) compared lexicographically. -/
abbrev Day := Lex (Nat × Lex (Nat × Nat))

def mkDay (y mo d : Nat) : Day := toLex (y, toLex (mo, d))

/-- `strftime('%Y-%m')`: the (year, month) component pair, which for
4-digit years is in bijection with the "YYYY-MM" string. -/
abbrev MonthKey := Lex (Nat × Nat)

def monthKeyOf (d : DT) : MonthKey := toLex ((ofLex d).1, (ofLex (ofLex d).2).1)

def yearOf (d : DT) : Nat := (ofLex d).1

/-- `datetime.date(d.year, d.month, d.day)` from a datetime. -/
def dayOf (d : DT) : Day :=
  toLex ((ofLex d).1, toLex ((ofLex (ofLex d).2).1, (ofLex (ofLex (ofLex d).2).2).1))

/-- The default start date `datetime.datetime(2022, 1, 1)`. -/
def start2022 : DT := mkDT 2022 1 1 0 0 0

/-! ## Python dicts as insertion-ordered association lists -/

section AList

variable {α : Type} {β : Type} {γ : Type} [DecidableEq α] [DecidableEq γ]

/-- Python `d.get(k)` / `d[k]`. -/
def lookupA : List (α × β) → α → Option β
  | [], _ => none
  | (k, v) :: rest, a => if k = a then some v else lookupA rest a

/-- Python `d[k] = v`: replace in place, or append a fresh key. -/
def setA : List (α × β) → α → β → List (α × β)
  | [], a, v => [(a, v)]
  | (k, w) :: rest, a, v => if k = a then (a, v) :: rest else (k, w) :: setA rest a v

/-- `d.keys()` in iteration order. -/
def keysA (m : List (α × β)) : List α := m.map Prod.fst

theorem lookupA_cons_self (k : α) (v : β) (rest : List (α × β)) :
    lookupA ((k, v) :: rest) k = some v := by
  simp [lookupA]

theorem lookupA_cons_ne {k a : α} (v : β) (rest : List (α × β)) (h : k ≠ a) :
    lookupA ((k, v) :: rest) a = lookupA rest a := by
  simp [lookupA, h]

/-- The implicit Python-dict invariant: keys are distinct. -/
def nodupKeys (m : List (α × β)) : Prop := (keysA m).Nodup

theorem lookupA_setA (m : List (α × β)) (a : α) (v : β) (k : α) :
    lookupA (setA m a v) k = if a = k then some v else lookupA m k := by
  induction m with
  | nil => by_cases h : a = k <;> simp [setA, lookupA, h]
  | cons p rest ih =>
    obtain ⟨pk, pv⟩ := p
    by_cases hpa : pk = a
    · subst hpa
      by_cases hk : pk = k <;> simp [setA, lookupA, hk]
    · by_cases hk : a = k
      · subst hk
        simp [setA, lookupA, hpa, ih]
      · simp only [setA, lookupA, if_neg hpa]
        by_cases hpk : pk = k <;> simp [lookupA, hpk, ih, hk]

theorem mem_keysA_setA (m : List (α × β)) (a : α) (v : β) (k : α) :
    k ∈ keysA (setA m a v) ↔ k = a ∨ k ∈ keysA m := by
  induction m with
  | nil => simp [setA, keysA]
  | cons p rest ih =>
    obtain ⟨pk, pv⟩ := p
    by_cases hpa : pk = a
    · subst hpa
      simp [setA, keysA]
    · simp only [setA, if_neg hpa, keysA, List.map_cons, List.mem_cons]
      constructor
      · rintro (h | h)
        · right; left; exact h
        · rcases (ih).mp h with h2 | h2
          · left; exact h2
          · right; right; exact h2
      · rintro (h | h | h)
        · right; exact (ih).mpr (Or.inl h)
        · left; exact h
        · right; exact (ih).mpr (Or.inr h)

theorem nodupKeys_setA (m : List (α × β)) (a : α) (v : β) (h : nodupKeys m) :
    nodupKeys (setA m a v) := by
  induction m with
  | nil => simp [setA, nodupKeys, keysA]
  | cons p rest ih =>
    obtain ⟨pk, pv⟩ := p
    simp only [nodupKeys, keysA, List.map_cons, List.nodup_cons] at h
    by_cases hpa : pk = a
    · subst hpa
      simpa [setA, nodupKeys, keysA] using h
    · have h2 := ih h.2
      simp only [setA, if_neg hpa, nodupKeys, keysA, List.map_cons, List.nodup_cons]
      refine ⟨?_, h2⟩
      intro hmem
      rcases (mem_keysA_setA rest a v pk).mp hmem with h3 | h3
      · exact hpa h3
      · exact h.1 h3

theorem lookupA_eq_none_iff (m : List (α × β)) (k : α) :
    lookupA m k = none ↔ k ∉ keysA m := by
  induction m with
  | nil => simp [lookupA, keysA]
  | cons p rest ih =>
    obtain ⟨pk, pv⟩ := p
    by_cases h : pk = k
    · subst h; simp [lookupA, keysA]
    · simp [lookupA, keysA, h, ih, Ne.symm h]

theorem lookupA_isSome_iff (m : List (α × β)) (k : α) :
    (lookupA m k).isSome = true ↔ k ∈ keysA m := by
  rcases h : lookupA m k with _ | v
  · simpa [Option.isSome] using (lookupA_eq_none_iff m k).mp h
  · simp only [Option.isSome, true_iff]
    by_contra hk
    rw [(lookupA_eq_none_iff m k).mpr hk] at h
    exact Option.noConfusion h

theorem mem_iff_lookupA {m : List (α × β)} (h : nodupKeys m) (a : α) (v : β) :
    (a, v) ∈ m ↔ lookupA m a = some v := by
  induction m with
  | nil => simp [lookupA]
  | cons p rest ih =>
    obtain ⟨pk, pv⟩ := p
    simp only [nodupKeys, keysA, List.map_cons, List.nodup_cons] at h
    by_cases hk : pk = a
    · subst hk
      rw [lookupA_cons_self]
      simp only [List.mem_cons, Option.some.injEq]
      constructor
      · rintro (he | he)
        · exact ((Prod.ext_iff.mp he).2).symm
        · exact absurd (List.mem_map_of_mem Prod.fst he) h.1
      · intro he
        left
        rw [he]
    · rw [lookupA_cons_ne _ _ hk]
      simp only [List.mem_cons]
      rw [← ih h.2]
      constructor
      · rintro (he | he)
        · exact absurd (congrArg Prod.fst he).symm hk
        · exact he
      · intro he
        right
        exact he

end AList

/-! ## Earliest-wins first-occurrence maps -/

section FirstOccurrence

variable {α : Type} {β : Type} [DecidableEq α] [LinearOrder β]

/-- The update pattern of `load_contributors_from_file` and
`generate_total_history`:
`if k not in d or d[k] > v: d[k] = v`. -/
def updEarliest (m : List (α × β)) (k : α) (v : β) : List (α × β) :=
  match lookupA m k with
  | none => setA m k v
  | some old => if v < old then setA m k v else m

/-- `ContributorHistory.merge_contributors`: start from a copy of the
base map and fold the earliest-wins update over the other map's items. -/
def mergeEarliest (base extra : List (α × β)) : List (α × β) :=
  extra.foldl (fun acc p => updEarliest acc p.1 p.2) base

/-- Combination of two optional dates, earliest wins. -/
def ominO : Option β → Option β → Option β
  | none, o => o
  | some x, none => some x
  | some x, some y => some (min x y)

theorem ominO_none_right (x : Option β) : ominO x none = x := by
  rcases x with _ | a <;> simp [ominO]

theorem lookupA_updEarliest (m : List (α × β)) (a : α) (v : β) (k : α) :
    lookupA (updEarliest m a v) k =
      if a = k then ominO (lookupA m a) (some v) else lookupA m k := by
  rcases h : lookupA m a with _ | old
  · simp only [updEarliest, h]
    rw [lookupA_setA]
    by_cases hk : a = k <;> simp [hk, ominO]
  · simp only [updEarliest, h]
    by_cases hv : v < old
    · rw [if_pos hv, lookupA_setA]
      by_cases hk : a = k
      · subst hk
        simp [ominO, min_eq_right (le_of_lt hv)]
      · simp [hk]
    · rw [if_neg hv]
      by_cases hk : a = k
      · subst hk
        simp [h, ominO, min_eq_left (not_lt.mp hv)]
      · simp [hk]

theorem mem_keysA_updEarliest (m : List (α × β)) (a : α) (v : β) (k : α) :
    k ∈ keysA (updEarliest m a v) ↔ k = a ∨ k ∈ keysA m := by
  rcases h : lookupA m a with _ | old
  · simp only [updEarliest, h]
    exact mem_keysA_setA m a v k
  · simp only [updEarliest, h]
    by_cases hv : v < old
    · simp [hv, mem_keysA_setA]
    · simp only [hv, if_false]
      constructor
      · intro hm; right; exact hm
      · rintro (hm | hm)
        · subst hm
          exact (lookupA_isSome_iff m k).mp (by simp [h])
        · exact hm

theorem nodupKeys_updEarliest (m : List (α × β)) (a : α) (v : β) (h : nodupKeys m) :
    nodupKeys (updEarliest m a v) := by
  rcases hl : lookupA m a with _ | old
  · simp only [updEarliest, hl]
    exact nodupKeys_setA m a v h
  · simp only [updEarliest, hl]
    by_cases hv : v < old
    · rw [if_pos hv]
      exact nodupKeys_setA m a v h
    · rw [if_neg hv]
      exact h

theorem ominO_comm (x y : Option β) : ominO x y = ominO y x := by
  rcases x with _ | a <;> rcases y with _ | b <;> simp [ominO, min_comm]

theorem ominO_assoc (x y z : Option β) : ominO (ominO x y) z = ominO x (ominO y z) := by
  rcases x with _ | a <;> rcases y with _ | b <;> rcases z with _ | c <;>
    simp [ominO, min_assoc]

/-- Folding earliest-wins updates over a pair list: pointwise, the result
at key `k` is the earliest among the initial value and the values paired
with `k` in the list. -/
theorem lookupA_foldl_updEarliest (pairs : List (α × β)) (m : List (α × β)) (k : α) :
    lookupA (pairs.foldl (fun acc p => updEarliest acc p.1 p.2) m) k =
      ominO (lookupA m k)
        ((pairs.filterMap (fun p => if p.1 = k then some p.2 else none)).min?) := by
  induction pairs generalizing m with
  | nil => simp [ominO_none_right]
  | cons p rest ih =>
    obtain ⟨pk, pv⟩ := p
    rw [List.foldl_cons, ih, lookupA_updEarliest, List.filterMap_cons]
    by_cases hk : pk = k
    · subst hk
      rw [if_pos rfl, if_pos rfl, ominO_assoc]
      congr 1
      rw [List.min?_cons]
      rcases hrest : (rest.filterMap fun p => if p.1 = pk then some p.2 else none).min?
        with _ | b <;> simp [ominO, hrest]
    · rw [if_neg hk, if_neg hk]

theorem mem_keysA_foldl_updEarliest (pairs : List (α × β)) (m : List (α × β)) (k : α) :
    k ∈ keysA (pairs.foldl (fun acc p => updEarliest acc p.1 p.2) m) ↔
      k ∈ keysA m ∨ k ∈ pairs.map Prod.fst := by
  induction pairs generalizing m with
  | nil => simp
  | cons p rest ih =>
    simp only [List.foldl_cons, ih, mem_keysA_updEarliest, List.map_cons, List.mem_cons]
    tauto

theorem nodupKeys_foldl_updEarliest (pairs : List (α × β)) (m : List (α × β))
    (h : nodupKeys m) :
    nodupKeys (pairs.foldl (fun acc p => updEarliest acc p.1 p.2) m) := by
  induction pairs generalizing m with
  | nil => exact h
  | cons p rest ih => exact ih _ (nodupKeys_updEarliest _ _ _ h)

/-- With distinct keys, the values paired with `k` reduce to the lookup. -/
theorem filterMap_eq_lookupA {m : List (α × β)} (h : nodupKeys m) (k : α) :
    (m.filterMap (fun p => if p.1 = k then some p.2 else none)) =
      (lookupA m k).toList := by
  induction m with
  | nil => simp [lookupA]
  | cons p rest ih =>
    obtain ⟨pk, pv⟩ := p
    simp only [nodupKeys, keysA, List.map_cons, List.nodup_cons] at h
    by_cases hk : pk = k
    · subst hk
      simp only [List.filterMap_cons, if_pos rfl, lookupA, Option.toList]
      have : (rest.filterMap fun p => if p.1 = pk then some p.2 else none) = [] := by
        rw [List.filterMap_eq_nil]
        intro p hp
        simp only [ite_eq_right_iff]
        intro hpk
        exact absurd (hpk ▸ (List.mem_map_of_mem Prod.fst hp)) h.1
      simp [this]
    · simp only [List.filterMap_cons, if_neg hk, lookupA]
      rw [ih h.2]

/-- Pointwise description of `merge_contributors`: per author, the
earlier of the two recorded dates wins; an author present in only one
map keeps that map's date. -/
theorem lookupA_mergeEarliest (base extra : List (α × β)) (h : nodupKeys extra) (k : α) :
    lookupA (mergeEarliest base extra) k = ominO (lookupA base k) (lookupA extra k) := by
  unfold mergeEarliest
  rw [lookupA_foldl_updEarliest, filterMap_eq_lookupA h]
  rcases lookupA extra k with _ | v
  · simp [Option.toList, List.min?]
  · simp [Option.toList, List.min?_cons, List.min?]

end FirstOccurrence

/-! ## Counter dicts -/

section Counters

variable {α : Type} {γ : Type} [DecidableEq α] [DecidableEq γ]

/-- `defaultdict(int)`: `d[k] += 1`. -/
def incrA (m : List (α × Nat)) (k : α) : List (α × Nat) :=
  setA m k ((lookupA m k).getD 0 + 1)

/-- `defaultdict(lambda: defaultdict(int))`: `d[a][k] += 1`. -/
def bumpA (m : List (α × List (γ × Nat))) (a : α) (k : γ) : List (α × List (γ × Nat)) :=
  setA m a (incrA ((lookupA m a).getD []) k)

/-- The count recorded for `(a, k)`, `0` when absent
(`months.get(period_key, 0)` on `contributions[author]`). -/
def cntA (m : List (α × List (γ × Nat))) (a : α) (k : γ) : Nat :=
  (lookupA ((lookupA m a).getD []) k).getD 0

/-- Sum of all recorded counts. -/
def sumCounts (m : List (α × Nat)) : Nat := (m.map Prod.snd).sum

theorem sumCounts_incrA (m : List (α × Nat)) (k : α) :
    sumCounts (incrA m k) = sumCounts m + 1 := by
  induction m with
  | nil => simp [incrA, setA, sumCounts, lookupA]
  | cons p rest ih =>
    obtain ⟨pk, pv⟩ := p
    by_cases h : pk = k
    · subst h
      simp [incrA, lookupA, setA, sumCounts]
      omega
    · have hstep : incrA ((pk, pv) :: rest) k = (pk, pv) :: incrA rest k := by
        simp [incrA, lookupA, setA, h]
      rw [hstep]
      simp only [sumCounts, List.map_cons, List.sum_cons] at ih ⊢
      omega

end Counters

/-! ## Input records

See the header comment for the encoding of JSON field values. -/

inductive DStr
  | bad
  | good (t : DT)
deriving DecidableEq

inductive AuthorF
  | junk
  | obj (login : Option String)
deriving DecidableEq

structure CommentN where
  author : Option AuthorF
  createdAt : Option DStr
deriving DecidableEq

structure NodeR where
  author : Option AuthorF
  createdAt : Option DStr
  mergedAt : Option DStr
  comments : Option (List (Option CommentN))
  reviews : Option (List (Option CommentN))
deriving DecidableEq

/-- An element of the edge list: `none` models an element that is not a
dict or has no `"node"` key (skipped by every processing loop). -/
abbrev EdgeR := Option NodeR

inductive FileData
  | jlist (edges : List EdgeR)
  | jobj (dataField : Option (List EdgeR))
deriving DecidableEq

/-- `edges = data if isinstance(data, list) else data.get("data", [])`. -/
def edgesOf : FileData → List EdgeR
  | .jlist es => es
  | .jobj o => o.getD []

/-- `RankingCalculator._parse_date` on a present, non-empty string. -/
def parse_date : DStr → Option DT
  | .bad => none
  | .good t => some t

/-- `{author: {month_key: count}}` contribution tables. -/
abbrev Contribs := List (String × List (MonthKey × Nat))

/-- `{author: first_contribution_date}` maps. -/
abbrev HMap := List (String × DT)

/-! ## calculate_rankings.py: processing -/

/-- One loop iteration of `RankingCalculator.process_prs`. -/
def prStep (start : DT) (st : Contribs) (e : EdgeR) : Except Unit Contribs :=
  match e with
  | none => .ok st
  | some node =>
    match node.author with
    | none => .ok st
    | some af =>
      match node.mergedAt with
      | none => .ok st
      | some md =>
        match af with
        | .junk => .error ()
        | .obj login =>
          match login with
          | none => .ok st
          | some a =>
            if is_bot a then .ok st
            else
              match parse_date md with
              | none => .ok st
              | some d =>
                if start ≤ d then .ok (bumpA st a (monthKeyOf d)) else .ok st

/-- `RankingCalculator.process_prs` over one file's content. -/
def process_prs (start : DT) (st : Contribs) (file : Option FileData) :
    Except Unit Contribs :=
  match file with
  | none => .ok st
  | some fd => (edgesOf fd).foldlM (prStep start) st

/-- One comment iteration of `RankingCalculator.process_issues_discussions`. -/
def commCommentStep (start : DT) (st : Contribs) (ce : Option CommentN) :
    Except Unit Contribs :=
  match ce with
  | none => .ok st
  | some cn =>
    match cn.author with
    | none => .ok st
    | some .junk => .error ()
    | some (.obj login) =>
      match login, cn.createdAt with
      | some a, some cd =>
        if is_bot a then .ok st
        else
          match parse_date cd with
          | none => .ok st
          | some d => if start ≤ d then .ok (bumpA st a (monthKeyOf d)) else .ok st
      | _, _ => .ok st

/-- One edge iteration of `RankingCalculator.process_issues_discussions`:
the post author is counted, then every comment author, with no
self-exclusion. -/
def idStep (start : DT) (st : Contribs) (e : EdgeR) : Except Unit Contribs :=
  match e with
  | none => .ok st
  | some node => do
    let st1 ← (match node.author with
      | none => Except.ok st
      | some .junk => Except.error ()
      | some (.obj login) =>
        match login, node.createdAt with
        | some a, some cd =>
          if is_bot a then Except.ok st
          else
            match parse_date cd with
            | none => Except.ok st
            | some d =>
              if start ≤ d then Except.ok (bumpA st a (monthKeyOf d)) else Except.ok st
        | _, _ => Except.ok st)
    (node.comments.getD []).foldlM (commCommentStep start) st1

/-- `RankingCalculator.process_issues_discussions` over one file. -/
def process_issues_discussions (start : DT) (st : Contribs) (file : Option FileData) :
    Except Unit Contribs :=
  match file with
  | none => .ok st
  | some fd => (edgesOf fd).foldlM (idStep start) st

/-- One nested-interaction iteration of `RankingCalculator.process_reviews`
(the source's comment loop and review loop perform the same checks). -/
def rvCommentStep (start : DT) (prA : Option String) (st : Contribs)
    (ce : Option CommentN) : Except Unit Contribs :=
  match ce with
  | none => .ok st
  | some cn =>
    match cn.author with
    | none => .ok st
    | some .junk => .error ()
    | some (.obj login) =>
      match login, cn.createdAt with
      | some a, some cd =>
        if is_bot a then .ok st
        else if prA = some a then .ok st
        else
          match parse_date cd with
          | none => .ok st
          | some d => if start ≤ d then .ok (bumpA st a (monthKeyOf d)) else .ok st
      | _, _ => .ok st

/-- One edge iteration of `RankingCalculator.process_reviews`. -/
def rvStep (start : DT) (st : Contribs) (e : EdgeR) : Except Unit Contribs :=
  match e with
  | none => .ok st
  | some node =>
    match node.author with
    | some .junk => .error ()
    | _ =>
      let prA : Option String :=
        match node.author with
        | some (.obj login) => login
        | _ => none
      do
        let st1 ← (node.comments.getD []).foldlM (rvCommentStep start prA) st
        (node.reviews.getD []).foldlM (rvCommentStep start prA) st1

/-- `RankingCalculator.process_reviews` over one file. -/
def process_reviews (start : DT) (st : Contribs) (file : Option FileData) :
    Except Unit Contribs :=
  match file with
  | none => .ok st
  | some fd => (edgesOf fd).foldlM (rvStep start) st

/-! ## calculate_contributor_history.py: loading -/

/-- One comment iteration of `ContributorHistory.load_contributors_from_file`. -/
def histCommentStep (start : DT) (m : HMap) (ce : Option CommentN) : Except Unit HMap :=
  match ce with
  | none => .ok m
  | some cn =>
    match cn.author with
    | none => .ok m
    | some .junk => .error ()
    | some (.obj login) =>
      match login, cn.createdAt with
      | some a, some cd =>
        Except.ok
          (match parse_date cd with
           | none => m
           | some d => if start ≤ d then updEarliest m a d else m)
      | _, _ => Except.ok m

/-- One edge iteration of `ContributorHistory.load_contributors_from_file`:
the main contribution (keyed on `createdAt`, with no merge requirement and
no bot filtering), then the comments. -/
def histStep (start : DT) (m : HMap) (e : EdgeR) : Except Unit HMap :=
  match e with
  | none => .ok m
  | some node => do
    let m1 ← (match node.author with
      | none => Except.ok m
      | some .junk => Except.error ()
      | some (.obj login) =>
        match login, node.createdAt with
        | some a, some cd =>
          Except.ok
            (match parse_date cd with
             | none => m
             | some d => if start ≤ d then updEarliest m a d else m)
        | _, _ => Except.ok m)
    (node.comments.getD []).foldlM (histCommentStep start) m1

/-- `ContributorHistory.load_contributors_from_file`. -/
def load_contributors_from_file (start : DT) (m : HMap) (file : Option FileData) :
    Except Unit HMap :=
  match file with
  | none => .ok m
  | some (.jlist es) => es.foldlM (histStep start) m
  | some (.jobj (some es)) => es.foldlM (histStep start) m
  | some (.jobj none) => .ok m

/-- `ContributorHistory.merge_contributors`: copy the community map and
fold earliest-wins updates of the code map's items over it. -/
def merge_contributors (community code : HMap) : HMap :=
  mergeEarliest community code

/-- `ContributorHistory.count_per_day`. -/
def count_per_day (contributors : HMap) : List (Day × Nat) :=
  contributors.foldl (fun acc p => incrA acc (dayOf p.2)) []

/-! ## Cumulative series -/

/-- The shared cumulative loop of
`ContributorHistory.generate_cumulative_data`,
`StarsHistoryAnalyzer.generate_cumulative_history` and the inline loop of
`StarsHistoryAnalyzer.generate_total_history`:
`for date in all_dates: cumulative_count += per_day[date]; append`. -/
def cumulScanDates (perDay : List (Day × Nat)) : List Day → Nat → List (Day × Nat)
  | [], _ => []
  | d :: rest, acc =>
    let c := acc + (lookupA perDay d).getD 0
    (d, c) :: cumulScanDates perDay rest c

/-- `sorted(per_day.keys())`. -/
def sortedDates (perDay : List (Day × Nat)) : List Day :=
  List.insertionSort (fun a b => a ≤ b) (keysA perDay)

/-- `ContributorHistory.generate_cumulative_data`. -/
def generate_cumulative_data (perDay : List (Day × Nat)) : List (Day × Nat) :=
  cumulScanDates perDay (sortedDates perDay) 0

/-- `StarsHistoryAnalyzer.generate_cumulative_history` (same loop as
`generate_cumulative_data`, duplicated in the source). -/
def generate_cumulative_history (perDay : List (Day × Nat)) : List (Day × Nat) :=
  cumulScanDates perDay (sortedDates perDay) 0

/-! ## calculate_stargazers_history.py: total history -/

/-- The `unique_stargazers` map of
`StarsHistoryAnalyzer.generate_total_history`: the global earliest-wins
first-occurrence map over all sources. -/
def unique_stargazers_map (all_stargazers : List (List (String × Day))) :
    List (String × Day) :=
  all_stargazers.foldl
    (fun acc info => info.foldl (fun m p => updEarliest m p.1 p.2) acc) []

/-- The `stars_per_day` counter of `generate_total_history`, derived from
the single global map. -/
def stars_per_day_total (all_stargazers : List (List (String × Day))) :
    List (Day × Nat) :=
  (unique_stargazers_map all_stargazers).foldl (fun acc p => incrA acc p.2) []

/-- `StarsHistoryAnalyzer.generate_total_history` over the extracted
`(username, day)` lists of all repositories: global earliest map, then
per-day counts, then one cumulative scan. -/
def generate_total_history (all_stargazers : List (List (String × Day))) :
    List (Day × Nat) :=
  cumulScanDates (stars_per_day_total all_stargazers)
    (sortedDates (stars_per_day_total all_stargazers)) 0

/-! ## calculate_rankings.py: ranking generation -/

structure RankEntry where
  author : String
  count : Nat
  rank : Nat
deriving DecidableEq

/-- The sort key `(-count, author)` of `_generate_ranking` as a relation:
count descending, then author ascending. -/
def rankRel (x y : String × Nat) : Prop :=
  y.2 < x.2 ∨ (x.2 = y.2 ∧ strLe x.1 y.1 = true)

instance : DecidableRel rankRel := fun x y => by
  unfold rankRel
  infer_instance

instance : IsTotal (String × Nat) rankRel where
  total x y := by
    rcases lt_trichotomy y.2 x.2 with h | h | h
    · left; left; exact h
    · rcases strLe_total x.1 y.1 with hs | hs
      · left; right; exact ⟨h.symm, hs⟩
      · right; right; exact ⟨h, hs⟩
    · right; left; exact h

instance : IsTrans (String × Nat) rankRel where
  trans x y z hxy hyz := by
    rcases hxy with h1 | ⟨h1, hs1⟩
    · rcases hyz with h2 | ⟨h2, _⟩
      · left; omega
      · left; omega
    · rcases hyz with h2 | ⟨h2, hs2⟩
      · left; omega
      · right; exact ⟨by omega, strLe_trans hs1 hs2⟩

instance : IsAntisymm (String × Nat) rankRel where
  antisymm x y hxy hyx := by
    rcases hxy with h1 | ⟨h1, hs1⟩
    · rcases hyx with h2 | ⟨h2, _⟩
      · omega
      · omega
    · rcases hyx with h2 | ⟨h2, hs2⟩
      · omega
      · exact Prod.ext (strLe_antisymm hs1 hs2) h1

/-- The pre-sort period list of `_generate_ranking`: one `(author, count)`
pair per author whose count for the period is positive. -/
def period_counts (contributions : Contribs) (period_key : MonthKey) :
    List (String × Nat) :=
  contributions.filterMap (fun p =>
    let count := (lookupA p.2 period_key).getD 0
    if count > 0 then some (p.1, count) else none)

/-- `period_counts.sort(key=lambda x: (-x["count"], x["author"]))`. -/
def sorted_period_counts (contributions : Contribs) (period_key : MonthKey) :
    List (String × Nat) :=
  List.insertionSort rankRel (period_counts contributions period_key)

/-- `RankingCalculator._generate_ranking`: sort, assign 1-based ranks to
the first `limit` entries, return the first `limit` entries. -/
def generate_ranking (contributions : Contribs) (period_key : MonthKey)
    (limit : Nat) : List RankEntry :=
  ((sorted_period_counts contributions period_key).take limit).enum.map
    (fun ie => ⟨ie.2.1, ie.2.2, ie.1 + 1⟩)

/-! ## calculate_rankings.py: MVP (composite) ranking -/

structure MvpScore where
  author : String
  score : Nat
  count : Nat
deriving DecidableEq

structure MvpEntry where
  author : String
  score : Nat
  count : Nat
  rank : Nat
deriving DecidableEq

/-- The dict comprehension `{item["author"]: item["rank"] for item in ranking}`. -/
def rank_lookup (ranking : List RankEntry) : List (String × Nat) :=
  ranking.foldl (fun acc e => setA acc e.author e.rank) []

/-- `next((item["count"] for item in ranking if item["author"] == author), 0)`. -/
def find_count (ranking : List RankEntry) (a : String) : Nat :=
  match ranking.find? (fun e => decide (e.author = a)) with
  | some e => e.count
  | none => 0

/-- `set(code_ranks) | set(community_ranks) | set(review_ranks)`, in one
canonical enumeration order (the sort below makes the output independent
of this order). -/
def all_authors (c m r : List RankEntry) : List String :=
  (c.map RankEntry.author ++ m.map RankEntry.author ++ r.map RankEntry.author).dedup

/-- The `{author, score, count}` record computed per author in
`_calculate_mvp_ranking`. -/
def mvp_score_of (c m r : List RankEntry) (a : String) : MvpScore :=
  ⟨a,
   (lookupA (rank_lookup c) a).getD (c.length + 1) +
     (lookupA (rank_lookup m) a).getD (m.length + 1) +
     (lookupA (rank_lookup r) a).getD (r.length + 1),
   find_count c a + find_count m a + find_count r a⟩

/-- The MVP sort key `(score, -count, author)`. -/
def mvpRel (x y : MvpScore) : Prop :=
  x.score < y.score ∨ (x.score = y.score ∧
    (y.count < x.count ∨ (y.count = x.count ∧ strLe x.author y.author = true)))

instance : DecidableRel mvpRel := fun x y => by
  unfold mvpRel
  infer_instance

instance : IsTotal MvpScore mvpRel where
  total x y := by
    rcases lt_trichotomy x.score y.score with h | h | h
    · left; left; exact h
    · rcases lt_trichotomy y.count x.count with h2 | h2 | h2
      · left; right; exact ⟨h, Or.inl h2⟩
      · rcases strLe_total x.author y.author with hs | hs
        · left; right; exact ⟨h, Or.inr ⟨h2, hs⟩⟩
        · right; right; exact ⟨h.symm, Or.inr ⟨h2.symm, hs⟩⟩
      · right; right; exact ⟨h.symm, Or.inl h2⟩
    · right; left; exact h

instance : IsTrans MvpScore mvpRel where
  trans x y z hxy hyz := by
    rcases hxy with h1 | ⟨h1, hc1⟩
    · rcases hyz with h2 | ⟨h2, _⟩
      · left; omega
      · left; omega
    · rcases hyz with h2 | ⟨h2, hc2⟩
      · left; omega
      · right
        refine ⟨by omega, ?_⟩
        rcases hc1 with hl1 | ⟨he1, hs1⟩
        · rcases hc2 with hl2 | ⟨he2, _⟩
          · left; omega
          · left; omega
        · rcases hc2 with hl2 | ⟨he2, hs2⟩
          · left; omega
          · right; exact ⟨by omega, strLe_trans hs1 hs2⟩

instance : IsAntisymm MvpScore mvpRel where
  antisymm x y hxy hyx := by
    rcases hxy with h1 | ⟨h1, hc1⟩
    · rcases hyx with h2 | ⟨h2, _⟩
      · omega
      · omega
    · rcases hyx with h2 | ⟨h2, hc2⟩
      · omega
      · rcases hc1 with hl1 | ⟨he1, hs1⟩
        · rcases hc2 with hl2 | ⟨he2, _⟩
          · omega
          · omega
        · rcases hc2 with hl2 | ⟨he2, hs2⟩
          · omega
          · cases x
            cases y
            simp only at h1 he1 hs1 hs2
            simp [strLe_antisymm hs1 hs2, h1, he1]

/-- The sorted pre-truncation MVP list
(`mvp_scores.sort(key=lambda x: (x["score"], -x["count"], x["author"]))`). -/
def mvp_sorted (c m r : List RankEntry) : List MvpScore :=
  List.insertionSort mvpRel ((all_authors c m r).map (mvp_score_of c m r))

/-- `RankingCalculator._calculate_mvp_ranking`. -/
def calculate_mvp_ranking (c m r : List RankEntry) (limit : Nat) : List MvpEntry :=
  ((mvp_sorted c m r).take limit).enum.map
    (fun ie => ⟨ie.2.author, ie.2.score, ie.2.count, ie.1 + 1⟩)

/-- Spec-side description of an author's rank in a category ranking:
the rank recorded in the author's entry, or `len(ranking)+1` when the
author is absent. -/
def rank_of_or_default (ranking : List RankEntry) (a : String) : Nat :=
  match ranking.find? (fun e => decide (e.author = a)) with
  | some e => e.rank
  | none => ranking.length + 1

/-! ## Generic helpers for `Except`-valued folds -/

section FoldlM

variable {σ β : Type} {α : Type}

theorem except_ok_bind (s : σ) (g : σ → Except Unit β) :
    (Except.ok s >>= g) = g s := rfl

theorem except_error_bind (g : σ → Except Unit β) :
    ((Except.error () : Except Unit σ) >>= g) = Except.error () := rfl

theorem except_bind_ok {x : Except Unit σ} {g : σ → Except Unit β} {r : β}
    (h : (x >>= g) = Except.ok r) : ∃ s, x = Except.ok s ∧ g s = Except.ok r := by
  cases x with
  | ok s => exact ⟨s, rfl, h⟩
  | error u =>
    cases u
    rw [except_error_bind] at h
    exact Except.noConfusion h

/-- Skipping a no-op element in the middle of an `Except` fold. -/
theorem foldlM_middle_skip (f : σ → α → Except Unit σ) (e : α)
    (he : ∀ s, f s e = Except.ok s) (l1 l2 : List α) (st : σ) :
    (l1 ++ e :: l2).foldlM f st = (l1 ++ l2).foldlM f st := by
  induction l1 generalizing st with
  | nil =>
    simp only [List.nil_append, List.foldlM_cons, he, except_ok_bind]
  | cons x xs ih =>
    simp only [List.cons_append, List.foldlM_cons]
    cases f st x with
    | ok s => simp only [except_ok_bind, ih]
    | error u => cases u; simp only [except_error_bind]

/-- An invariant preserved by each successful step is preserved by a
successful fold. -/
theorem foldlM_inv (P : σ → Prop) (f : σ → α → Except Unit σ)
    (hstep : ∀ s e s2, P s → f s e = Except.ok s2 → P s2)
    (l : List α) (st st2 : σ) (h : P st) (hr : l.foldlM f st = Except.ok st2) :
    P st2 := by
  induction l generalizing st with
  | nil =>
    rw [List.foldlM_nil] at hr
    cases hr
    exact h
  | cons x xs ih =>
    rw [List.foldlM_cons] at hr
    obtain ⟨s, hf, hrest⟩ := except_bind_ok hr
    exact ih _ (hstep _ _ _ h hf) hrest

end FoldlM

/-! ## Step-shape lemmas -/

/-- Any successful `prStep` either leaves the table unchanged or bumps a
non-bot author at the month of the PR's merge timestamp. -/
theorem prStep_ok_shape (start : DT) (st : Contribs) (e : EdgeR) (st2 : Contribs)
    (h : prStep start st e = Except.ok st2) :
    st2 = st ∨ ∃ a d, is_bot a = false ∧ start ≤ d ∧
      st2 = bumpA st a (monthKeyOf d) := by
  rcases e with _ | ⟨auth, ca, ma, cs, rs⟩
  · simp only [prStep] at h; cases h; left; rfl
  rcases auth with _ | af
  · simp only [prStep] at h; cases h; left; rfl
  rcases ma with _ | md
  · simp only [prStep] at h; cases h; left; rfl
  rcases af with _ | login
  · simp only [prStep] at h; exact Except.noConfusion h
  rcases login with _ | a
  · simp only [prStep] at h; cases h; left; rfl
  rcases md with _ | d
  · simp only [prStep, parse_date] at h
    by_cases hb : is_bot a = true <;> simp only [hb] at h <;> simp at h <;>
      (subst h; left; rfl)
  simp only [prStep, parse_date] at h
  by_cases hb : is_bot a = true
  · simp only [hb] at h
    simp at h
    subst h; left; rfl
  · simp only [Bool.not_eq_true] at hb
    simp only [hb] at h
    simp only [Bool.false_eq_true, if_false] at h
    by_cases hle : start ≤ d
    · simp only [if_pos hle] at h
      cases h
      right
      exact ⟨a, d, hb, hle, rfl⟩
    · simp only [if_neg hle] at h
      cases h; left; rfl

/-- Any successful `commCommentStep` either leaves the table unchanged or
bumps a non-bot author. -/
theorem commCommentStep_ok_shape (start : DT) (st : Contribs) (ce : Option CommentN)
    (st2 : Contribs) (h : commCommentStep start st ce = Except.ok st2) :
    st2 = st ∨ ∃ a d, is_bot a = false ∧ start ≤ d ∧
      st2 = bumpA st a (monthKeyOf d) := by
  rcases ce with _ | ⟨cauth, ccd⟩
  · simp only [commCommentStep] at h; cases h; left; rfl
  rcases cauth with _ | af
  · simp only [commCommentStep] at h; cases h; left; rfl
  rcases af with _ | login
  · simp only [commCommentStep] at h; exact Except.noConfusion h
  rcases login with _ | a
  · simp only [commCommentStep] at h; cases h; left; rfl
  rcases ccd with _ | cd
  · simp only [commCommentStep] at h; cases h; left; rfl
  rcases cd with _ | d
  · simp only [commCommentStep, parse_date] at h
    by_cases hb : is_bot a = true <;> simp only [hb] at h <;> simp at h <;>
      (subst h; left; rfl)
  simp only [commCommentStep, parse_date] at h
  by_cases hb : is_bot a = true
  · simp only [hb] at h
    simp at h
    subst h; left; rfl
  · simp only [Bool.not_eq_true] at hb
    simp only [hb, Bool.false_eq_true, if_false] at h
    by_cases hle : start ≤ d
    · simp only [if_pos hle] at h
      cases h
      right
      exact ⟨a, d, hb, hle, rfl⟩
    · simp only [if_neg hle] at h
      cases h; left; rfl

/-- Any successful `rvCommentStep` either leaves the table unchanged or
bumps a non-bot author distinct from the parent item's author. -/
theorem rvCommentStep_ok_shape (start : DT) (prA : Option String) (st : Contribs)
    (ce : Option CommentN) (st2 : Contribs)
    (h : rvCommentStep start prA st ce = Except.ok st2) :
    st2 = st ∨ ∃ a d, is_bot a = false ∧ prA ≠ some a ∧ start ≤ d ∧
      st2 = bumpA st a (monthKeyOf d) := by
  rcases ce with _ | ⟨cauth, ccd⟩
  · simp only [rvCommentStep] at h; cases h; left; rfl
  rcases cauth with _ | af
  · simp only [rvCommentStep] at h; cases h; left; rfl
  rcases af with _ | login
  · simp only [rvCommentStep] at h; exact Except.noConfusion h
  rcases login with _ | a
  · simp only [rvCommentStep] at h; cases h; left; rfl
  rcases ccd with _ | cd
  · simp only [rvCommentStep] at h; cases h; left; rfl
  rcases cd with _ | d
  · simp only [rvCommentStep, parse_date] at h
    by_cases hb : is_bot a = true
    · simp only [hb] at h; simp at h; subst h; left; rfl
    · simp only [Bool.not_eq_true] at hb
      simp only [hb, Bool.false_eq_true, if_false] at h
      by_cases hself : prA = some a <;> simp [hself] at h <;> (subst h; left; rfl)
  simp only [rvCommentStep, parse_date] at h
  by_cases hb : is_bot a = true
  · simp only [hb] at h; simp at h; subst h; left; rfl
  · simp only [Bool.not_eq_true] at hb
    simp only [hb, Bool.false_eq_true, if_false] at h
    by_cases hself : prA = some a
    · simp only [if_pos hself] at h
      cases h; left; rfl
    · simp only [if_neg hself] at h
      by_cases hle : start ≤ d
      · simp only [if_pos hle] at h
        cases h
        right
        exact ⟨a, d, hb, hself, hle, rfl⟩
      · simp only [if_neg hle] at h
        cases h; left; rfl

/-! ## Bot exclusion in the rankings pipeline -/

/-- No key of the table is a bot login. -/
def botFree (st : Contribs) : Prop := ∀ a ∈ keysA st, is_bot a = false

theorem mem_keysA_bumpA (st : Contribs) (a : String) (k : MonthKey) (x : String) :
    x ∈ keysA (bumpA st a k) ↔ x = a ∨ x ∈ keysA st :=
  mem_keysA_setA st a _ x

theorem botFree_bumpA {st : Contribs} {a : String} {k : MonthKey}
    (hb : botFree st) (ha : is_bot a = false) : botFree (bumpA st a k) := by
  intro x hx
  rcases (mem_keysA_bumpA st a k x).mp hx with h | h
  · subst h; exact ha
  · exact hb x h

theorem prStep_botFree (start : DT) {st : Contribs} {e : EdgeR} {st2 : Contribs}
    (h : prStep start st e = Except.ok st2) (hb : botFree st) : botFree st2 := by
  rcases prStep_ok_shape _ _ _ _ h with he | ⟨a, d, hbot, _, he⟩
  · subst he; exact hb
  · subst he; exact botFree_bumpA hb hbot

theorem commCommentStep_botFree (start : DT) {st : Contribs} {ce : Option CommentN}
    {st2 : Contribs} (h : commCommentStep start st ce = Except.ok st2)
    (hb : botFree st) : botFree st2 := by
  rcases commCommentStep_ok_shape _ _ _ _ h with he | ⟨a, d, hbot, _, he⟩
  · subst he; exact hb
  · subst he; exact botFree_bumpA hb hbot

theorem rvCommentStep_botFree (start : DT) (prA : Option String) {st : Contribs}
    {ce : Option CommentN} {st2 : Contribs}
    (h : rvCommentStep start prA st ce = Except.ok st2) (hb : botFree st) :
    botFree st2 := by
  rcases rvCommentStep_ok_shape _ _ _ _ _ h with he | ⟨a, d, hbot, _, _, he⟩
  · subst he; exact hb
  · subst he; exact botFree_bumpA hb hbot

theorem idStep_botFree (start : DT) {st : Contribs} {e : EdgeR} {st2 : Contribs}
    (h : idStep start st e = Except.ok st2) (hb : botFree st) : botFree st2 := by
  rcases e with _ | ⟨auth, ca, ma, cs, rs⟩
  · simp only [idStep] at h; cases h; exact hb
  simp only [idStep] at h
  obtain ⟨st1, h1, h2⟩ := except_bind_ok h
  have hb1 : botFree st1 := by
    rcases auth with _ | af
    · cases h1; exact hb
    rcases af with _ | login
    · exact Except.noConfusion h1
    rcases login with _ | a
    · cases h1; exact hb
    rcases ca with _ | cd
    · cases h1; exact hb
    rcases cd with _ | d
    · simp only [parse_date] at h1
      by_cases hbot : is_bot a = true <;> simp [hbot] at h1 <;> (subst h1; exact hb)
    simp only [parse_date] at h1
    by_cases hbot : is_bot a = true
    · simp [hbot] at h1; subst h1; exact hb
    · simp only [Bool.not_eq_true] at hbot
      simp only [hbot, Bool.false_eq_true, if_false] at h1
      by_cases hle : start ≤ d
      · simp only [if_pos hle] at h1
        cases h1
        exact botFree_bumpA hb hbot
      · simp only [if_neg hle] at h1
        cases h1; exact hb
  exact foldlM_inv botFree _
    (fun s e2 s2 hs hstep => commCommentStep_botFree start hstep hs) _ _ _ hb1 h2

theorem rvStep_botFree (start : DT) {st : Contribs} {e : EdgeR} {st2 : Contribs}
    (h : rvStep start st e = Except.ok st2) (hb : botFree st) : botFree st2 := by
  rcases e with _ | ⟨auth, ca, ma, cs, rs⟩
  · simp only [rvStep] at h; cases h; exact hb
  have hfold : ∀ (prA : Option String) (l : List (Option CommentN)) (s s2 : Contribs),
      botFree s → l.foldlM (rvCommentStep start prA) s = Except.ok s2 → botFree s2 :=
    fun prA l s s2 hs hr =>
      foldlM_inv botFree _
        (fun s3 e2 s4 hs3 hstep => rvCommentStep_botFree start prA hstep hs3) _ _ _ hs hr
  rcases auth with _ | af
  · simp only [rvStep] at h
    obtain ⟨st1, h1, h2⟩ := except_bind_ok h
    exact hfold _ _ _ _ (hfold _ _ _ _ hb h1) h2
  rcases af with _ | login
  · simp only [rvStep] at h
    exact Except.noConfusion h
  · simp only [rvStep] at h
    obtain ⟨st1, h1, h2⟩ := except_bind_ok h
    exact hfold _ _ _ _ (hfold _ _ _ _ hb h1) h2

theorem process_prs_botFree (start : DT) {st : Contribs} {file : Option FileData}
    {st2 : Contribs} (h : process_prs start st file = Except.ok st2)
    (hb : botFree st) : botFree st2 := by
  rcases file with _ | fd
  · cases h; exact hb
  · exact foldlM_inv botFree _
      (fun s e s2 hs hstep => prStep_botFree start hstep hs) _ _ _ hb h

theorem process_issues_discussions_botFree (start : DT) {st : Contribs}
    {file : Option FileData} {st2 : Contribs}
    (h : process_issues_discussions start st file = Except.ok st2)
    (hb : botFree st) : botFree st2 := by
  rcases file with _ | fd
  · cases h; exact hb
  · exact foldlM_inv botFree _
      (fun s e s2 hs hstep => idStep_botFree start hstep hs) _ _ _ hb h

theorem process_reviews_botFree (start : DT) {st : Contribs}
    {file : Option FileData} {st2 : Contribs}
    (h : process_reviews start st file = Except.ok st2)
    (hb : botFree st) : botFree st2 := by
  rcases file with _ | fd
  · cases h; exact hb
  · exact foldlM_inv botFree _
      (fun s e s2 hs hstep => rvStep_botFree start hstep hs) _ _ _ hb h

/-! ## Membership facts about generated rankings -/

theorem mem_period_counts {t : Contribs} {p : MonthKey} {pr : String × Nat}
    (h : pr ∈ period_counts t p) :
    pr.1 ∈ keysA t ∧ 0 < pr.2 := by
  unfold period_counts at h
  obtain ⟨q, hq, hf⟩ := List.mem_filterMap.mp h
  by_cases hc : 0 < (lookupA q.2 p).getD 0
  · simp only [hc, if_pos] at hf
    cases hf
    exact ⟨List.mem_map_of_mem Prod.fst hq, hc⟩
  · simp only [if_neg hc] at hf
    exact Option.noConfusion hf

theorem mem_generate_ranking_pair {t : Contribs} {p : MonthKey} {limit : Nat}
    {e : RankEntry} (h : e ∈ generate_ranking t p limit) :
    (e.author, e.count) ∈ period_counts t p := by
  unfold generate_ranking at h
  obtain ⟨ie, hie, hf⟩ := List.mem_map.mp h
  have h2 : ie.2 ∈ (sorted_period_counts t p).take limit := by
    have := List.mem_map_of_mem Prod.snd hie
    rwa [List.enum_map_snd] at this
  have h3 : ie.2 ∈ sorted_period_counts t p := List.take_subset _ _ h2
  have h4 : ie.2 ∈ period_counts t p :=
    ((List.perm_insertionSort rankRel _).mem_iff).mp h3
  have : (e.author, e.count) = ie.2 := by
    cases hf
    rfl
  rwa [this]

theorem mem_mvp_author {c m r : List RankEntry} {limit : Nat} {e : MvpEntry}
    (h : e ∈ calculate_mvp_ranking c m r limit) :
    e.author ∈ all_authors c m r := by
  unfold calculate_mvp_ranking at h
  obtain ⟨ie, hie, hf⟩ := List.mem_map.mp h
  have h2 : ie.2 ∈ (mvp_sorted c m r).take limit := by
    have := List.mem_map_of_mem Prod.snd hie
    rwa [List.enum_map_snd] at this
  have h3 : ie.2 ∈ mvp_sorted c m r := List.take_subset _ _ h2
  have h4 : ie.2 ∈ (all_authors c m r).map (mvp_score_of c m r) :=
    ((List.perm_insertionSort mvpRel _).mem_iff).mp h3
  obtain ⟨a, ha, hsc⟩ := List.mem_map.mp h4
  have : e.author = a := by
    cases hf
    rw [← hsc]
    simp [mvp_score_of]
  rw [this]
  exact ha

/-! ## Skip lemmas for single records -/

/-- A self-authored nested interaction is always dropped by the review
category, whatever its timestamp or bot status. -/
theorem rvCommentStep_self (start : DT) (a : String) (st : Contribs)
    (cd : Option DStr) :
    rvCommentStep start (some a) st (some ⟨some (AuthorF.obj (some a)), cd⟩) =
      Except.ok st := by
  rcases cd with _ | cd
  · simp [rvCommentStep]
  · simp only [rvCommentStep]
    by_cases hb : is_bot a = true
    · simp [hb]
    · simp only [Bool.not_eq_true] at hb
      simp [hb]

theorem prStep_skip (start : DT) (st : Contribs) {e : EdgeR}
    (h : e = none ∨ ∃ n : NodeR, e = some n ∧
      (n.author = none ∨ n.mergedAt = none ∨ n.author = some (AuthorF.obj none) ∨
        (∃ lg, n.author = some (AuthorF.obj lg) ∧ n.mergedAt = some DStr.bad))) :
    prStep start st e = Except.ok st := by
  rcases h with h | ⟨n, he, hcase⟩
  · subst h; rfl
  subst he
  obtain ⟨auth, ca, ma, cs, rs⟩ := n
  rcases hcase with h | h | h | ⟨lg, h1, h2⟩
  · simp only at h
    subst h
    simp [prStep]
  · simp only at h
    subst h
    rcases auth with _ | af
    · simp [prStep]
    · rcases af with _ | lg <;> simp [prStep]
  · simp only at h
    subst h
    rcases ma with _ | md <;> simp [prStep]
  · simp only at h1 h2
    subst h1
    subst h2
    rcases lg with _ | a
    · simp [prStep]
    · simp only [prStep, parse_date]
      by_cases hb : is_bot a = true
      · simp [hb]
      · simp only [Bool.not_eq_true] at hb
        simp [hb]

theorem histStep_skip (start : DT) (m : HMap) {e : EdgeR}
    (h : e = none ∨ ∃ n : NodeR, e = some n ∧ n.comments = none ∧
      (n.author = none ∨ n.author = some (AuthorF.obj none) ∨
        (∃ a, n.author = some (AuthorF.obj (some a)) ∧
          (n.createdAt = none ∨ n.createdAt = some DStr.bad)))) :
    histStep start m e = Except.ok m := by
  rcases h with h | ⟨n, he, hcs, hcase⟩
  · subst h; rfl
  subst he
  obtain ⟨auth, ca, ma, cs, rs⟩ := n
  simp only at hcs
  subst hcs
  rcases hcase with h | h | ⟨a, h1, h2⟩
  · simp only at h
    subst h
    simp [histStep]
  · simp only at h
    subst h
    simp [histStep]
  · simp only at h1
    subst h1
    rcases h2 with h2 | h2 <;> simp only at h2 <;> subst h2 <;>
      simp [histStep, parse_date]

/-! ## Claim C1 (corrected) -/

/-- C1 (counterexample to the claim as stated): the contributor-history
loader applies no bot filtering at all — a record authored by
`"dependabot[bot]"` is recorded in the first-occurrence map, although
`_is_bot` classifies that login as a bot. -/
theorem spec_C1_counterexample :
    load_contributors_from_file start2022 []
      (some (FileData.jlist [some ⟨some (AuthorF.obj (some "dependabot[bot]")),
        some (DStr.good (mkDT 2023 3 15 0 0 0)), none, none, none⟩])) =
      Except.ok [("dependabot[bot]", mkDT 2023 3 15 0 0 0)] ∧
    is_bot "dependabot[bot]" = true := by
  constructor
  · rfl
  · decide

/-- C1 (amended): in the rankings pipeline, bot exclusion is applied to
every candidate author before any event is emitted: every successful run
of the three processors preserves bot-freeness of the count tables, and
every author appearing in a category ranking or in the composite (MVP)
ranking is a non-bot.  (The contributor-history first-occurrence maps, by
contrast, are not bot-filtered; see the counterexample.) -/
theorem spec_C1_bot_exclusion (start : DT) :
    (∀ (st : Contribs) (file : Option FileData) (st2 : Contribs),
        process_prs start st file = Except.ok st2 → botFree st → botFree st2) ∧
    (∀ (st : Contribs) (file : Option FileData) (st2 : Contribs),
        process_issues_discussions start st file = Except.ok st2 →
          botFree st → botFree st2) ∧
    (∀ (st : Contribs) (file : Option FileData) (st2 : Contribs),
        process_reviews start st file = Except.ok st2 → botFree st → botFree st2) ∧
    (∀ (t : Contribs) (p : MonthKey) (limit : Nat) (e : RankEntry),
        botFree t → e ∈ generate_ranking t p limit → is_bot e.author = false) ∧
    (∀ (c m r : List RankEntry) (limit : Nat) (e : MvpEntry),
        (∀ x ∈ c, is_bot x.author = false) →
        (∀ x ∈ m, is_bot x.author = false) →
        (∀ x ∈ r, is_bot x.author = false) →
        e ∈ calculate_mvp_ranking c m r limit → is_bot e.author = false) := by
  refine ⟨?_, ?_, ?_, ?_, ?_⟩
  · exact fun st file st2 h hb => process_prs_botFree start h hb
  · exact fun st file st2 h hb => process_issues_discussions_botFree start h hb
  · exact fun st file st2 h hb => process_reviews_botFree start h hb
  · intro t p limit e hb he
    exact hb e.author (mem_period_counts (mem_generate_ranking_pair he)).1
  · intro c m r limit e hc hm hr he
    have ha := mem_mvp_author he
    unfold all_authors at ha
    have ha2 := List.mem_dedup.mp ha
    rcases List.mem_append.mp ha2 with h2 | h2
    · rcases List.mem_append.mp h2 with h3 | h3
      · obtain ⟨x, hx, hxa⟩ := List.mem_map.mp h3
        rw [← hxa]
        exact hc x hx
      · obtain ⟨x, hx, hxa⟩ := List.mem_map.mp h3
        rw [← hxa]
        exact hm x hx
    · obtain ⟨x, hx, hxa⟩ := List.mem_map.mp h2
      rw [← hxa]
      exact hr x hx

/-- C1 witness: the amended theorem applied at a concrete input. -/
theorem spec_C1_witness :
    is_bot (RankEntry.mk "zoe" 1 1).author = false := by
  have h := (spec_C1_bot_exclusion start2022).2.2.2.1
    [("zoe", [(monthKeyOf (mkDT 2023 3 15 0 0 0), 1)])]
    (monthKeyOf (mkDT 2023 3 15 0 0 0)) 50 (RankEntry.mk "zoe" 1 1)
    (by unfold botFree; decide) (by decide)
  exact h

/-! ## Claim C2 (corrected) -/

/-- C2 (counterexample to the claim as stated): an unmerged PR record
(`mergedAt` absent) does produce a code contribution in the
code-contributor first-occurrence history — `load_contributors_from_file`
records its author at the creation timestamp — even though the same
record contributes nothing to the per-period code count table. -/
theorem spec_C2_counterexample :
    load_contributors_from_file start2022 []
      (some (FileData.jlist [some ⟨some (AuthorF.obj (some "amy")),
        some (DStr.good (mkDT 2023 3 15 0 0 0)), none, none, none⟩])) =
      Except.ok [("amy", mkDT 2023 3 15 0 0 0)] ∧
    process_prs start2022 []
      (some (FileData.jlist [some ⟨some (AuthorF.obj (some "amy")),
        some (DStr.good (mkDT 2023 3 15 0 0 0)), none, none, none⟩])) =
      Except.ok [] := by
  constructor
  · rfl
  · rfl

/-- C2 (amended): in the per-period code count table, a code contribution
is produced only for an item carrying both an author and a merge
timestamp, and a merged item's contribution is attributed to the period
of its merge timestamp, whatever its creation timestamp; the
code-contributor first-occurrence history, by contrast, records any item
with an author and a parseable creation timestamp, merged or not, keyed
by creation time. -/
theorem spec_C2_code_contributions (start : DT) :
    (∀ (st : Contribs) (n : NodeR), n.mergedAt = none →
        prStep start st (some n) = Except.ok st) ∧
    (∀ (st : Contribs) (n : NodeR), n.author = none →
        prStep start st (some n) = Except.ok st) ∧
    (∀ (st : Contribs) (a : String) (ca : Option DStr) (dm : DT)
        (cs rs : Option (List (Option CommentN))),
        is_bot a = false → start ≤ dm →
        prStep start st
            (some ⟨some (AuthorF.obj (some a)), ca, some (DStr.good dm), cs, rs⟩) =
          Except.ok (bumpA st a (monthKeyOf dm))) ∧
    (∀ (m : HMap) (a : String) (dc : DT) (mv : Option DStr),
        start ≤ dc →
        histStep start m
            (some ⟨some (AuthorF.obj (some a)), some (DStr.good dc), mv, none, none⟩) =
          Except.ok (updEarliest m a dc)) := by
  refine ⟨?_, ?_, ?_, ?_⟩
  · intro st n h
    exact prStep_skip start st (Or.inr ⟨n, rfl, Or.inr (Or.inl h)⟩)
  · intro st n h
    exact prStep_skip start st (Or.inr ⟨n, rfl, Or.inl h⟩)
  · intro st a ca dm cs rs hb hle
    simp [prStep, parse_date, hb, hle]
  · intro m a dc mv hle
    simp [histStep, parse_date, hle]

/-- C2 witness: the amended theorem applied at a concrete input. -/
theorem spec_C2_witness :
    prStep start2022 []
        (some ⟨some (AuthorF.obj (some "zoe")), some (DStr.good (mkDT 2021 6 1 0 0 0)),
          some (DStr.good (mkDT 2023 3 15 12 0 0)), none, none⟩) =
      Except.ok (bumpA [] "zoe" (monthKeyOf (mkDT 2023 3 15 12 0 0))) := by
  have h := (spec_C2_code_contributions start2022).2.2.1 []
    "zoe" (some (DStr.good (mkDT 2021 6 1 0 0 0))) (mkDT 2023 3 15 12 0 0) none none
    (by decide) (by decide)
  exact h

/-! ## Claim C8 (confirmed) -/

/-- C8: a nested comment or review whose author equals the parent item's
author contributes nothing to the review category — it is dropped
whatever its timestamp or bot status, and removing it from the item's
comment list leaves review processing of the whole item unchanged — while
the community category applies no such self-exclusion: a comment on an
issue or discussion authored by the post's own author is still counted. -/
theorem spec_C8_self_exclusion (start : DT) :
    (∀ (a : String) (st : Contribs) (cd : Option DStr),
        rvCommentStep start (some a) st
            (some ⟨some (AuthorF.obj (some a)), cd⟩) = Except.ok st) ∧
    (∀ (a : String) (st : Contribs) (cd ca ma : Option DStr)
        (pre post : List (Option CommentN)) (rs : Option (List (Option CommentN))),
        rvStep start st (some ⟨some (AuthorF.obj (some a)), ca, ma,
            some (pre ++ some ⟨some (AuthorF.obj (some a)), cd⟩ :: post), rs⟩) =
          rvStep start st
            (some ⟨some (AuthorF.obj (some a)), ca, ma, some (pre ++ post), rs⟩)) ∧
    (∀ (a : String) (st : Contribs) (d : DT),
        is_bot a = false → start ≤ d →
        commCommentStep start st
            (some ⟨some (AuthorF.obj (some a)), some (DStr.good d)⟩) =
          Except.ok (bumpA st a (monthKeyOf d))) ∧
    (∀ (a : String) (st : Contribs) (d0 d : DT),
        is_bot a = false → start ≤ d0 → start ≤ d →
        idStep start st (some ⟨some (AuthorF.obj (some a)), some (DStr.good d0), none,
            some [some ⟨some (AuthorF.obj (some a)), some (DStr.good d)⟩], none⟩) =
          Except.ok (bumpA (bumpA st a (monthKeyOf d0)) a (monthKeyOf d))) := by
  refine ⟨?_, ?_, ?_, ?_⟩
  · exact fun a st cd => rvCommentStep_self start a st cd
  · intro a st cd ca ma pre post rs
    simp only [rvStep, Option.getD_some]
    rw [foldlM_middle_skip (rvCommentStep start (some a)) _
      (fun s => rvCommentStep_self start a s cd) pre post st]
  · intro a st d hb hle
    simp [commCommentStep, parse_date, hb, hle]
  · intro a st d0 d hb hle0 hle
    simp [idStep, commCommentStep, parse_date, hb, hle0, hle, except_ok_bind]

/-- C8 witness: the theorem applied at a concrete input. -/
theorem spec_C8_witness :
    idStep start2022 []
        (some ⟨some (AuthorF.obj (some "zoe")),
          some (DStr.good (mkDT 2023 3 15 0 0 0)), none,
          some [some ⟨some (AuthorF.obj (some "zoe")),
            some (DStr.good (mkDT 2023 3 16 0 0 0))⟩], none⟩) =
      Except.ok (bumpA (bumpA [] "zoe" (monthKeyOf (mkDT 2023 3 15 0 0 0))) "zoe"
        (monthKeyOf (mkDT 2023 3 16 0 0 0))) := by
  have h := (spec_C8_self_exclusion start2022).2.2.2 "zoe" []
    (mkDT 2023 3 15 0 0 0) (mkDT 2023 3 16 0 0 0) (by decide) (by decide) (by decide)
  exact h

/-! ## Claim C9 (corrected) -/

/-- C9 (counterexample to the claim as stated): a record of the wrong
shape — here an `author` field holding a truthy non-object value — is not
skipped individually: `node["author"].get("login")` raises an uncaught
`AttributeError`, aborting the file, so the following well-formed merged
PR by "zoe" is never counted. -/
theorem spec_C9_counterexample :
    process_prs start2022 []
      (some (FileData.jlist
        [some ⟨some AuthorF.junk, none, some (DStr.good (mkDT 2023 3 15 0 0 0)),
          none, none⟩,
         some ⟨some (AuthorF.obj (some "zoe")), none,
          some (DStr.good (mkDT 2023 3 15 0 0 0)), none, none⟩])) =
      Except.error () := by
  rfl

/-- C9 (amended): a missing or invalid-JSON file contributes zero events
and leaves the accumulated tables unchanged; a record failing the code's
explicitly checked malformations — a non-dict edge or one without a
`"node"` key, a `null` author object, a missing login, a missing or
unparseable timestamp — is skipped individually and every remaining
record is still processed; but a record whose author field holds a truthy
non-object value raises an uncaught error that aborts processing of the
file's remaining records. -/
theorem spec_C9_error_handling (start : DT) :
    (∀ st : Contribs, process_prs start st none = Except.ok st) ∧
    (∀ st : Contribs, process_issues_discussions start st none = Except.ok st) ∧
    (∀ st : Contribs, process_reviews start st none = Except.ok st) ∧
    (∀ m : HMap, load_contributors_from_file start m none = Except.ok m) ∧
    (∀ (st : Contribs) (pre post : List EdgeR) (e : EdgeR),
        (e = none ∨ ∃ n : NodeR, e = some n ∧
          (n.author = none ∨ n.mergedAt = none ∨
            n.author = some (AuthorF.obj none) ∨
            (∃ lg, n.author = some (AuthorF.obj lg) ∧ n.mergedAt = some DStr.bad))) →
        process_prs start st (some (FileData.jlist (pre ++ e :: post))) =
          process_prs start st (some (FileData.jlist (pre ++ post)))) ∧
    (∀ (m : HMap) (pre post : List EdgeR) (e : EdgeR),
        (e = none ∨ ∃ n : NodeR, e = some n ∧ n.comments = none ∧
          (n.author = none ∨ n.author = some (AuthorF.obj none) ∨
            (∃ a, n.author = some (AuthorF.obj (some a)) ∧
              (n.createdAt = none ∨ n.createdAt = some DStr.bad)))) →
        load_contributors_from_file start m (some (FileData.jlist (pre ++ e :: post))) =
          load_contributors_from_file start m (some (FileData.jlist (pre ++ post)))) ∧
    (∀ (st : Contribs) (ca : Option DStr) (db : DStr)
        (cs rs : Option (List (Option CommentN))),
        prStep start st (some ⟨some AuthorF.junk, ca, some db, cs, rs⟩) =
          Except.error ()) := by
  refine ⟨fun st => rfl, fun st => rfl, fun st => rfl, fun m => rfl, ?_, ?_, ?_⟩
  · intro st pre post e h
    simp only [process_prs, edgesOf]
    exact foldlM_middle_skip _ _ (fun s => prStep_skip start s h) pre post st
  · intro m pre post e h
    simp only [load_contributors_from_file]
    exact foldlM_middle_skip _ _ (fun s => histStep_skip start s h) pre post m
  · intro st ca db cs rs
    rfl

/-- C9 witness: the amended theorem applied at a concrete input. -/
theorem spec_C9_witness :
    process_prs start2022 []
        (some (FileData.jlist
          [some ⟨none, none, some (DStr.good (mkDT 2023 3 15 0 0 0)), none, none⟩,
           some ⟨some (AuthorF.obj (some "zoe")), none,
            some (DStr.good (mkDT 2023 3 15 0 0 0)), none, none⟩])) =
      process_prs start2022 []
        (some (FileData.jlist
          [some ⟨some (AuthorF.obj (some "zoe")), none,
            some (DStr.good (mkDT 2023 3 15 0 0 0)), none, none⟩])) := by
  have h := (spec_C9_error_handling start2022).2.2.2.2.1 [] []
    [some ⟨some (AuthorF.obj (some "zoe")), none,
      some (DStr.good (mkDT 2023 3 15 0 0 0)), none, none⟩]
    (some ⟨none, none, some (DStr.good (mkDT 2023 3 15 0 0 0)), none, none⟩)
    (Or.inr ⟨_, rfl, Or.inl rfl⟩)
  exact h

/-! ## Claim C4: properties of `_generate_ranking` -/

theorem lookupA_mem {α β : Type} [DecidableEq α] {m : List (α × β)} {a : α} {v : β}
    (h : lookupA m a = some v) : (a, v) ∈ m := by
  induction m with
  | nil => exact Option.noConfusion h
  | cons p rest ih =>
    obtain ⟨pk, pv⟩ := p
    by_cases hk : pk = a
    · subst hk
      rw [lookupA_cons_self] at h
      cases h
      exact List.mem_cons_self _ _
    · rw [lookupA_cons_ne _ _ hk] at h
      exact List.mem_cons_of_mem _ (ih h)

theorem mem_map_fst_period_counts {t : Contribs} {p : MonthKey} (h : nodupKeys t)
    (a : String) :
    a ∈ (period_counts t p).map Prod.fst ↔ 0 < cntA t a p := by
  constructor
  · intro hm
    obtain ⟨pr, hpr, hfst⟩ := List.mem_map.mp hm
    unfold period_counts at hpr
    obtain ⟨q, hq, hf⟩ := List.mem_filterMap.mp hpr
    by_cases hc : 0 < (lookupA q.2 p).getD 0
    · simp only [hc, if_pos] at hf
      cases hf
      obtain ⟨qa, qm⟩ := q
      have : lookupA t qa = some qm := (mem_iff_lookupA h qa qm).mp hq
      subst hfst
      simpa [cntA, this] using hc
    · simp only [if_neg hc] at hf
      exact Option.noConfusion hf
  · intro hc
    rcases hq : lookupA t a with _ | months
    · simp [cntA, hq, lookupA] at hc
    · have hmem : (a, months) ∈ t := lookupA_mem hq
      have hcm : 0 < (lookupA months p).getD 0 := by simpa [cntA, hq] using hc
      refine List.mem_map.mpr ⟨(a, (lookupA months p).getD 0), ?_, rfl⟩
      unfold period_counts
      exact List.mem_filterMap.mpr ⟨(a, months), hmem, by simp [hcm]⟩

theorem mem_period_counts_count {t : Contribs} {p : MonthKey} (h : nodupKeys t)
    {pr : String × Nat} (hpr : pr ∈ period_counts t p) :
    pr.2 = cntA t pr.1 p ∧ 0 < pr.2 := by
  unfold period_counts at hpr
  obtain ⟨q, hq, hf⟩ := List.mem_filterMap.mp hpr
  by_cases hc : 0 < (lookupA q.2 p).getD 0
  · simp only [hc, if_pos] at hf
    cases hf
    obtain ⟨qa, qm⟩ := q
    have : lookupA t qa = some qm := (mem_iff_lookupA h qa qm).mp hq
    exact ⟨by simp [cntA, this], hc⟩
  · simp only [if_neg hc] at hf
    exact Option.noConfusion hf

/-- C4: for every contribution table (with the dict invariant of distinct
author keys) and period key, the pre-truncation sorted list contains
exactly the authors with positive count for that period; it is sorted by
(count descending, author ascending); the returned ranking is its
`limit`-prefix with each entry's `rank` equal to its 1-based position
(which truncation does not renumber); every returned entry carries the
author's true table count; and the result is independent of the table's
iteration order. -/
theorem spec_C4_generate_ranking (t : Contribs) (p : MonthKey) (h : nodupKeys t) :
    (∀ a, a ∈ (sorted_period_counts t p).map Prod.fst ↔ 0 < cntA t a p) ∧
    List.Sorted rankRel (sorted_period_counts t p) ∧
    (∀ limit, (generate_ranking t p limit).map (fun e => (e.author, e.count)) =
      (sorted_period_counts t p).take limit) ∧
    (∀ limit i (hi : i < (generate_ranking t p limit).length),
      ((generate_ranking t p limit).get ⟨i, hi⟩).rank = i + 1) ∧
    (∀ limit (e : RankEntry), e ∈ generate_ranking t p limit →
      e.count = cntA t e.author p ∧ 0 < e.count) ∧
    (∀ (t2 : Contribs) limit, t2.Perm t →
      generate_ranking t2 p limit = generate_ranking t p limit) := by
  have hperm : (sorted_period_counts t p).Perm (period_counts t p) :=
    List.perm_insertionSort rankRel _
  refine ⟨?_, ?_, ?_, ?_, ?_, ?_⟩
  · intro a
    rw [← mem_map_fst_period_counts h a]
    constructor
    · intro hm
      obtain ⟨pr, hpr, hfst⟩ := List.mem_map.mp hm
      exact List.mem_map.mpr ⟨pr, hperm.mem_iff.mp hpr, hfst⟩
    · intro hm
      obtain ⟨pr, hpr, hfst⟩ := List.mem_map.mp hm
      exact List.mem_map.mpr ⟨pr, hperm.mem_iff.mpr hpr, hfst⟩
  · exact List.sorted_insertionSort rankRel _
  · intro limit
    unfold generate_ranking
    rw [List.map_map]
    have : ((fun e : RankEntry => (e.author, e.count)) ∘
        (fun ie : Nat × (String × Nat) => RankEntry.mk ie.2.1 ie.2.2 (ie.1 + 1))) =
        Prod.snd := by
      funext ie
      rfl
    rw [this, List.enum_map_snd]
  · intro limit i hi
    unfold generate_ranking at hi ⊢
    rw [List.get_eq_getElem, List.getElem_map, List.getElem_enum]
  · intro limit e he
    have hpair := mem_generate_ranking_pair he
    have := mem_period_counts_count h hpair
    exact this
  · intro t2 limit hp
    have hpc : (period_counts t2 p).Perm (period_counts t p) :=
      hp.filterMap _
    have hs : sorted_period_counts t2 p = sorted_period_counts t p := by
      apply List.eq_of_perm_of_sorted
        ((List.perm_insertionSort rankRel _).trans
          (hpc.trans (List.perm_insertionSort rankRel _).symm))
        (List.sorted_insertionSort rankRel _)
        (List.sorted_insertionSort rankRel _)
    unfold generate_ranking
    rw [hs]

/-- C4 witness: the theorem applied at a concrete table. -/
theorem spec_C4_witness :
    (RankEntry.mk "zoe" 2 1).count =
      cntA [("zoe", [(monthKeyOf (mkDT 2023 3 15 0 0 0), 2)])] "zoe"
        (monthKeyOf (mkDT 2023 3 15 0 0 0)) ∧
    0 < (RankEntry.mk "zoe" 2 1).count := by
  have h := (spec_C4_generate_ranking
      [("zoe", [(monthKeyOf (mkDT 2023 3 15 0 0 0), 2)])]
      (monthKeyOf (mkDT 2023 3 15 0 0 0))
      (by unfold nodupKeys keysA; decide)).2.2.2.2.1 50
      (RankEntry.mk "zoe" 2 1) (by decide)
  exact h

/-! ## Claims C3 and C10: the MVP (composite) ranking -/

/-- The dict comprehension lookup agrees, on duplicate-free rankings,
with the first (unique) entry found for the author. -/
theorem lookupA_rank_lookup_aux (rk : List RankEntry)
    (h : (rk.map RankEntry.author).Nodup) (a : String) (acc : List (String × Nat)) :
    lookupA (rk.foldl (fun acc2 e => setA acc2 e.author e.rank) acc) a =
      (match rk.find? (fun e => decide (e.author = a)) with
       | some e => some e.rank
       | none => lookupA acc a) := by
  induction rk generalizing acc with
  | nil => simp [List.find?]
  | cons e rest ih =>
    simp only [List.map_cons, List.nodup_cons] at h
    rw [List.foldl_cons]
    by_cases hea : e.author = a
    · have hfind : rest.find? (fun e2 => decide (e2.author = a)) = none := by
        rw [List.find?_eq_none]
        intro x hx
        simp only [decide_eq_true_eq]
        intro hxa
        have hmem : x.author ∈ List.map RankEntry.author rest :=
          List.mem_map_of_mem _ hx
        rw [hxa, ← hea] at hmem
        exact h.1 hmem
      have hcons : List.find? (fun e2 => decide (e2.author = a)) (e :: rest) =
          some e := by
        rw [List.find?_cons]
        simp [hea]
      rw [ih h.2, hfind, hcons, lookupA_setA]
      simp [hea]
    · have hcons : List.find? (fun e2 => decide (e2.author = a)) (e :: rest) =
          rest.find? (fun e2 => decide (e2.author = a)) := by
        rw [List.find?_cons]
        simp [hea]
      rw [ih h.2, hcons, lookupA_setA]
      rcases hf : rest.find? (fun e2 => decide (e2.author = a)) with _ | e2 <;>
        rw [hf] <;> simp [hea]

theorem rank_lookup_getD {rk : List RankEntry} (h : (rk.map RankEntry.author).Nodup)
    (a : String) :
    (lookupA (rank_lookup rk) a).getD (rk.length + 1) = rank_of_or_default rk a := by
  unfold rank_lookup rank_of_or_default
  rw [lookupA_rank_lookup_aux rk h a []]
  rcases hf : rk.find? (fun e => decide (e.author = a)) with _ | e <;>
    rw [hf] <;> simp [lookupA]

/-- Extraction of the `MvpScore` underlying an entry of the MVP output. -/
theorem mem_calculate_mvp_score {c m r : List RankEntry} {limit : Nat} {e : MvpEntry}
    (h : e ∈ calculate_mvp_ranking c m r limit) :
    MvpScore.mk e.author e.score e.count = mvp_score_of c m r e.author ∧
    MvpScore.mk e.author e.score e.count ∈ mvp_sorted c m r := by
  unfold calculate_mvp_ranking at h
  obtain ⟨ie, hie, hf⟩ := List.mem_map.mp h
  obtain ⟨i, sc⟩ := ie
  have h2 : sc ∈ (mvp_sorted c m r).take limit := by
    have := List.mem_map_of_mem Prod.snd hie
    rwa [List.enum_map_snd] at this
  have h3 : sc ∈ mvp_sorted c m r := List.take_subset _ _ h2
  have h4 : sc ∈ (all_authors c m r).map (mvp_score_of c m r) :=
    ((List.perm_insertionSort mvpRel _).mem_iff).mp h3
  obtain ⟨a, ha, hsc⟩ := List.mem_map.mp h4
  obtain ⟨sca, scs, scc⟩ := sc
  cases hf
  have haa : a = sca := by
    have := congrArg MvpScore.author hsc
    simpa [mvp_score_of] using this
  subst haa
  exact ⟨hsc.symm, h3⟩

/-- C3: every entry of the composite (MVP) ranking has score equal to the
sum of the author's ranks in the three (already truncated) category
rankings, with `len(ranking)+1` substituted for an absent author, and
count equal to the sum of the author's raw counts with `0` for absent
categories; and the composite list is ordered by (score ascending, count
descending, author ascending) before ranks are assigned by 1-based
position and the list is truncated. -/
theorem spec_C3_mvp_ranking (c m r : List RankEntry)
    (hc : (c.map RankEntry.author).Nodup) (hm : (m.map RankEntry.author).Nodup)
    (hr : (r.map RankEntry.author).Nodup) :
    (∀ (limit : Nat) (e : MvpEntry), e ∈ calculate_mvp_ranking c m r limit →
      e.score = rank_of_or_default c e.author + rank_of_or_default m e.author +
        rank_of_or_default r e.author ∧
      e.count = find_count c e.author + find_count m e.author + find_count r e.author) ∧
    List.Sorted mvpRel (mvp_sorted c m r) ∧
    (∀ limit : Nat, (calculate_mvp_ranking c m r limit).map
        (fun e => MvpScore.mk e.author e.score e.count) = (mvp_sorted c m r).take limit) ∧
    (∀ (limit : Nat) i (hi : i < (calculate_mvp_ranking c m r limit).length),
      ((calculate_mvp_ranking c m r limit).get ⟨i, hi⟩).rank = i + 1) := by
  refine ⟨?_, ?_, ?_, ?_⟩
  · intro limit e he
    obtain ⟨hsc, _⟩ := mem_calculate_mvp_score he
    constructor
    · have := congrArg MvpScore.score hsc
      simp only [mvp_score_of] at this
      rw [this, rank_lookup_getD hc, rank_lookup_getD hm, rank_lookup_getD hr]
    · have := congrArg MvpScore.count hsc
      simp only [mvp_score_of] at this
      exact this
  · exact List.sorted_insertionSort mvpRel _
  · intro limit
    unfold calculate_mvp_ranking
    rw [List.map_map]
    have : ((fun e : MvpEntry => MvpScore.mk e.author e.score e.count) ∘
        (fun ie : Nat × MvpScore =>
          MvpEntry.mk ie.2.author ie.2.score ie.2.count (ie.1 + 1))) = Prod.snd := by
      funext ie
      obtain ⟨i, sc⟩ := ie
      obtain ⟨sca, scs, scc⟩ := sc
      rfl
    rw [this, List.enum_map_snd]
  · intro limit i hi
    unfold calculate_mvp_ranking at hi ⊢
    rw [List.get_eq_getElem, List.getElem_map, List.getElem_enum]

/-- C3 witness: the theorem applied at a concrete input, where "zoe"
appears only in the code ranking (rank 1, count 3) of length 1, so her
composite score is 1 + (0+1) + (0+1) = 3 and her count is 3 + 0 + 0. -/
theorem spec_C3_witness :
    (MvpEntry.mk "zoe" 3 3 1).score =
      rank_of_or_default [RankEntry.mk "zoe" 3 1] "zoe" +
      rank_of_or_default [] "zoe" + rank_of_or_default [] "zoe" ∧
    (MvpEntry.mk "zoe" 3 3 1).count =
      find_count [RankEntry.mk "zoe" 3 1] "zoe" + find_count [] "zoe" +
      find_count [] "zoe" := by
  have h := (spec_C3_mvp_ranking [RankEntry.mk "zoe" 3 1] [] []
    (by decide) (by decide) (by decide)).1 50 (MvpEntry.mk "zoe" 3 3 1) (by decide)
  exact h

/-- C10: the authors of the MVP ranking are exactly a prefix, after the
composite ordering and truncation, of the union of the authors of the
three already-truncated category rankings; an author outside all three
truncated category lists never appears in the MVP ranking. -/
theorem spec_C10_mvp_authors_union (c m r : List RankEntry) (limit : Nat) :
    ((calculate_mvp_ranking c m r limit).map MvpEntry.author =
      ((mvp_sorted c m r).map MvpScore.author).take limit) ∧
    (∀ a, a ∈ (mvp_sorted c m r).map MvpScore.author ↔
      (a ∈ c.map RankEntry.author ∨ a ∈ m.map RankEntry.author ∨
        a ∈ r.map RankEntry.author)) ∧
    (∀ a, a ∉ c.map RankEntry.author → a ∉ m.map RankEntry.author →
      a ∉ r.map RankEntry.author →
      ∀ e ∈ calculate_mvp_ranking c m r limit, e.author ≠ a) := by
  have hauthors : ∀ a, a ∈ (mvp_sorted c m r).map MvpScore.author ↔
      (a ∈ c.map RankEntry.author ∨ a ∈ m.map RankEntry.author ∨
        a ∈ r.map RankEntry.author) := by
    intro a
    have hperm : ((mvp_sorted c m r).map MvpScore.author).Perm
        (((all_authors c m r).map (mvp_score_of c m r)).map MvpScore.author) :=
      (List.perm_insertionSort mvpRel _).map _
    rw [hperm.mem_iff, List.map_map]
    have : (MvpScore.author ∘ mvp_score_of c m r) = id := by
      funext x
      rfl
    rw [this, List.map_id]
    unfold all_authors
    rw [List.mem_dedup, List.mem_append, List.mem_append]
    tauto
  refine ⟨?_, hauthors, ?_⟩
  · unfold calculate_mvp_ranking
    rw [List.map_map]
    have : (MvpEntry.author ∘
        (fun ie : Nat × MvpScore =>
          MvpEntry.mk ie.2.author ie.2.score ie.2.count (ie.1 + 1))) =
        (MvpScore.author ∘ Prod.snd) := by
      funext ie
      rfl
    rw [this, ← List.map_map, List.enum_map_snd, List.map_take]
  · intro a hac ham har e he hea
    have hmem := mem_mvp_author he
    have : e.author ∈ (mvp_sorted c m r).map MvpScore.author := by
      have hx := List.mem_map_of_mem (mvp_score_of c m r) hmem
      have hmem2 : mvp_score_of c m r e.author ∈ mvp_sorted c m r :=
        ((List.perm_insertionSort mvpRel
          ((all_authors c m r).map (mvp_score_of c m r))).symm.mem_iff).mp hx
      exact List.mem_map.mpr ⟨_, hmem2, rfl⟩
    rw [hea] at this
    rcases (hauthors a).mp this with h | h | h
    · exact hac h
    · exact ham h
    · exact har h

/-- C10 witness: the theorem applied at a concrete input. -/
theorem spec_C10_witness :
    "zoe" ∈ (mvp_sorted [RankEntry.mk "zoe" 3 1] [] []).map MvpScore.author := by
  have h := (spec_C10_mvp_authors_union [RankEntry.mk "zoe" 3 1] [] [] 50).2.1 "zoe"
  exact h.mpr (Or.inl (by decide))

/-! ## Cumulative-series lemmas -/

theorem cumulScanDates_map_fst (p : List (Day × Nat)) (dates : List Day) (acc : Nat) :
    (cumulScanDates p dates acc).map Prod.fst = dates := by
  induction dates generalizing acc with
  | nil => rfl
  | cons d rest ih => simp [cumulScanDates, ih]

theorem cumulScanDates_length (p : List (Day × Nat)) (dates : List Day) (acc : Nat) :
    (cumulScanDates p dates acc).length = dates.length := by
  induction dates generalizing acc with
  | nil => rfl
  | cons d rest ih => simp [cumulScanDates, ih]

theorem cumulScanDates_value_ge (p : List (Day × Nat)) (dates : List Day) (acc : Nat) :
    ∀ e ∈ cumulScanDates p dates acc, acc ≤ e.2 := by
  induction dates generalizing acc with
  | nil => intro e he; exact absurd he (List.not_mem_nil e)
  | cons d rest ih =>
    intro e he
    simp only [cumulScanDates, List.mem_cons] at he
    rcases he with he | he
    · subst he; simp
    · have := ih (acc + (lookupA p d).getD 0) e he
      omega

theorem cumulScanDates_monotone (p : List (Day × Nat)) (dates : List Day) (acc : Nat) :
    List.Pairwise (fun x y : Day × Nat => x.2 ≤ y.2) (cumulScanDates p dates acc) := by
  induction dates generalizing acc with
  | nil => exact List.Pairwise.nil
  | cons d rest ih =>
    simp only [cumulScanDates]
    refine List.Pairwise.cons ?_ (ih _)
    intro e he
    have := cumulScanDates_value_ge p rest (acc + (lookupA p d).getD 0) e he
    omega

theorem cumulScanDates_getLast (p : List (Day × Nat)) (dates : List Day) (acc : Nat) :
    ∀ e, (cumulScanDates p dates acc).getLast? = some e →
      e.2 = acc + (dates.map (fun d => (lookupA p d).getD 0)).sum := by
  induction dates generalizing acc with
  | nil => intro e he; exact Option.noConfusion he
  | cons d rest ih =>
    intro e he
    cases hr : rest with
    | nil =>
      subst hr
      simp only [cumulScanDates, List.getLast?_singleton, Option.some.injEq] at he
      subst he
      simp
    | cons d2 rest2 =>
      subst hr
      simp only [cumulScanDates] at he
      rw [List.getLast?_cons_cons] at he
      have hlast := ih (acc + (lookupA p d).getD 0) e he
      simp only [List.map_cons, List.sum_cons] at hlast ⊢
      omega

theorem sum_lookup_keysA {m : List (Day × Nat)} (h : nodupKeys m) :
    ((keysA m).map (fun d => (lookupA m d).getD 0)).sum = sumCounts m := by
  induction m with
  | nil => rfl
  | cons p rest ih =>
    obtain ⟨pk, pv⟩ := p
    simp only [nodupKeys, keysA, List.map_cons, List.nodup_cons] at h
    have hcong : List.map (fun d => (lookupA ((pk, pv) :: rest) d).getD 0)
        (rest.map Prod.fst) =
        List.map (fun d => (lookupA rest d).getD 0) (rest.map Prod.fst) := by
      apply List.map_congr_left
      intro d hd
      have hne : pk ≠ d := fun hc => h.1 (hc ▸ hd)
      rw [lookupA_cons_ne _ _ hne]
    simp only [keysA, List.map_cons, List.sum_cons, lookupA_cons_self,
      Option.getD_some]
    rw [hcong]
    have := ih h.2
    simp only [keysA] at this
    rw [this]
    simp [sumCounts]

theorem nodupKeys_foldl_incr {α γ : Type} [DecidableEq α] [DecidableEq γ]
    (f : α → γ) (l : List α) (m : List (γ × Nat)) (h : nodupKeys m) :
    nodupKeys (l.foldl (fun acc x => incrA acc (f x)) m) := by
  induction l generalizing m with
  | nil => exact h
  | cons x xs ih => exact ih _ (nodupKeys_setA _ _ _ h)

theorem sumCounts_foldl_incr {α γ : Type} [DecidableEq α] [DecidableEq γ]
    (f : α → γ) (l : List α) (m : List (γ × Nat)) :
    sumCounts (l.foldl (fun acc x => incrA acc (f x)) m) = sumCounts m + l.length := by
  induction l generalizing m with
  | nil => rfl
  | cons x xs ih =>
    rw [List.foldl_cons, ih, sumCounts_incrA]
    simp only [List.length_cons]
    omega

theorem sum_over_sortedDates {m : List (Day × Nat)} (h : nodupKeys m) :
    ((sortedDates m).map (fun d => (lookupA m d).getD 0)).sum = sumCounts m := by
  have hp : (((sortedDates m).map (fun d => (lookupA m d).getD 0))).Perm
      ((keysA m).map (fun d => (lookupA m d).getD 0)) :=
    (List.perm_insertionSort _ _).map _
  rw [hp.sum_eq, sum_lookup_keysA h]

/-! ## Claim C7 (confirmed) -/

/-- C7: for any per-day count map (a dict, hence with distinct day keys;
counts are naturals, hence non-negative), the generated cumulative series
has one entry per distinct input day (its dates are a permutation of the
input's keys and its length is the input's size), is sorted ascending by
date, has non-decreasing cumulative counts, and its last entry's count is
the sum of all per-day counts; the stargazer variant is the identical
function. -/
theorem spec_C7_cumulative_series (m : List (Day × Nat)) (h : nodupKeys m) :
    (∀ x, generate_cumulative_history x = generate_cumulative_data x) ∧
    ((generate_cumulative_data m).map Prod.fst).Perm (keysA m) ∧
    (generate_cumulative_data m).length = m.length ∧
    List.Sorted (fun a b : Day => a ≤ b) ((generate_cumulative_data m).map Prod.fst) ∧
    List.Pairwise (fun x y : Day × Nat => x.2 ≤ y.2) (generate_cumulative_data m) ∧
    (∀ e, (generate_cumulative_data m).getLast? = some e → e.2 = sumCounts m) ∧
    (∀ contributors : HMap,
      sumCounts (count_per_day contributors) = contributors.length) := by
  refine ⟨fun x => rfl, ?_, ?_, ?_, ?_, ?_, ?_⟩
  · unfold generate_cumulative_data
    rw [cumulScanDates_map_fst]
    exact List.perm_insertionSort _ _
  · unfold generate_cumulative_data
    rw [cumulScanDates_length]
    have := (List.perm_insertionSort (fun a b : Day => a ≤ b) (keysA m)).length_eq
    unfold sortedDates
    rw [this]
    simp [keysA]
  · unfold generate_cumulative_data
    rw [cumulScanDates_map_fst]
    exact List.sorted_insertionSort _ _
  · exact cumulScanDates_monotone _ _ _
  · intro e he
    have hl := cumulScanDates_getLast _ _ _ e he
    rwa [sum_over_sortedDates h, Nat.zero_add] at hl
  · intro contributors
    unfold count_per_day
    rw [sumCounts_foldl_incr]
    simp [sumCounts]

/-- C7 witness: the theorem applied at a concrete two-day map. -/
theorem spec_C7_witness :
    (mkDay 2023 1 2, 3).2 =
      sumCounts [(mkDay 2023 1 2, 2), (mkDay 2023 1 1, 1)] := by
  have h := (spec_C7_cumulative_series [(mkDay 2023 1 2, 2), (mkDay 2023 1 1, 1)]
    (by unfold nodupKeys keysA; decide)).2.2.2.2.2.1 (mkDay 2023 1 2, 3) rfl
  exact h

/-! ## Claim C6 (confirmed) -/

theorem unique_stargazers_map_eq_flatten (all : List (List (String × Day))) :
    unique_stargazers_map all =
      (all.flatten).foldl (fun m p => updEarliest m p.1 p.2) [] := by
  unfold unique_stargazers_map
  suffices hgen : ∀ init : List (String × Day),
      all.foldl (fun acc info => info.foldl (fun m p => updEarliest m p.1 p.2) acc) init =
        (all.flatten).foldl (fun m p => updEarliest m p.1 p.2) init from hgen []
  intro init
  induction all generalizing init with
  | nil => rfl
  | cons l rest ih =>
    simp only [List.foldl_cons, List.flatten_cons, List.foldl_append]
    exact ih _

theorem filterMap_if_fst (l : List (String × Day)) (u : String) :
    l.filterMap (fun p => if p.1 = u then some p.2 else none) =
      (l.filter (fun p => decide (p.1 = u))).map Prod.snd := by
  induction l with
  | nil => rfl
  | cons p rest ih =>
    by_cases h : p.1 = u <;>
      simp [List.filterMap_cons, List.filter_cons, h, ih]

/-- C6: the total star history is computed by building one global
earliest-star-date map over all sources, then per-day counts from that
single map, then one cumulative series; consequently each stargazer's
recorded date is the minimum of their star days across all sources, the
global map has one entry per distinct stargazer, and the final cumulative
count equals the number of distinct stargazers — a stargazer present in
several repositories is counted exactly once. -/
theorem spec_C6_total_stars (all : List (List (String × Day))) :
    (generate_total_history all =
      cumulScanDates (stars_per_day_total all)
        (sortedDates (stars_per_day_total all)) 0) ∧
    (∀ u, lookupA (unique_stargazers_map all) u =
      ((all.flatten.filter (fun p => decide (p.1 = u))).map Prod.snd).min?) ∧
    nodupKeys (unique_stargazers_map all) ∧
    (∀ u, u ∈ keysA (unique_stargazers_map all) ↔ u ∈ (all.flatten).map Prod.fst) ∧
    ((keysA (unique_stargazers_map all)).length =
      ((all.flatten).map Prod.fst).dedup.length) ∧
    (∀ e, (generate_total_history all).getLast? = some e →
      e.2 = (unique_stargazers_map all).length) := by
  have hnodup : nodupKeys (unique_stargazers_map all) := by
    rw [unique_stargazers_map_eq_flatten]
    exact nodupKeys_foldl_updEarliest _ _ (by simp [nodupKeys, keysA])
  have hmem : ∀ u, u ∈ keysA (unique_stargazers_map all) ↔
      u ∈ (all.flatten).map Prod.fst := by
    intro u
    rw [unique_stargazers_map_eq_flatten]
    rw [mem_keysA_foldl_updEarliest]
    simp [keysA]
  refine ⟨rfl, ?_, hnodup, hmem, ?_, ?_⟩
  · intro u
    rw [unique_stargazers_map_eq_flatten, lookupA_foldl_updEarliest,
      filterMap_if_fst]
    rfl
  · have h2 : ((all.flatten).map Prod.fst).dedup.Nodup := List.nodup_dedup _
    have hperm := (List.perm_ext_iff_of_nodup hnodup h2).mpr
      (fun u => (hmem u).trans (List.mem_dedup).symm)
    exact hperm.length_eq
  · intro e he
    have hnodup2 : nodupKeys (stars_per_day_total all) :=
      nodupKeys_foldl_incr Prod.snd _ _ (by simp [nodupKeys, keysA])
    have hl := cumulScanDates_getLast _ _ _ e he
    rw [sum_over_sortedDates hnodup2, Nat.zero_add] at hl
    rw [hl]
    unfold stars_per_day_total
    rw [sumCounts_foldl_incr]
    simp [sumCounts]

/-- C6 witness: "carol" starred two repositories; the cumulative total
counts her exactly once. -/
theorem spec_C6_witness :
    (mkDay 2022 6 1, 1).2 =
      (unique_stargazers_map
        [[("carol", mkDay 2023 1 5)], [("carol", mkDay 2022 6 1)]]).length := by
  have h := (spec_C6_total_stars
    [[("carol", mkDay 2023 1 5)], [("carol", mkDay 2022 6 1)]]).2.2.2.2.2
    (mkDay 2022 6 1, 1) rfl
  exact h

/-! ## Claim C5 (confirmed) -/

/-- C5: merging two first-occurrence maps takes, per author, the earlier
of the two recorded timestamps; an author present in only one map keeps
that map's timestamp; as maps (pointwise on lookups) the merge is
commutative and associative; and updating a map with a pair already
recorded at that or an earlier timestamp leaves the map unchanged. -/
theorem spec_C5_earliest_merge :
    (∀ (A B : HMap), nodupKeys B → ∀ k,
      (∀ tA tB, lookupA A k = some tA → lookupA B k = some tB →
        lookupA (merge_contributors A B) k = some (min tA tB)) ∧
      (∀ tA, lookupA A k = some tA → lookupA B k = none →
        lookupA (merge_contributors A B) k = some tA) ∧
      (∀ tB, lookupA A k = none → lookupA B k = some tB →
        lookupA (merge_contributors A B) k = some tB)) ∧
    (∀ (A B : HMap), nodupKeys A → nodupKeys B → ∀ k,
      lookupA (merge_contributors A B) k = lookupA (merge_contributors B A) k) ∧
    (∀ (A B C : HMap), nodupKeys B → nodupKeys C → ∀ k,
      lookupA (merge_contributors (merge_contributors A B) C) k =
        lookupA (merge_contributors A (merge_contributors B C)) k) ∧
    (∀ (m : HMap) (a : String) (t t2 : DT), lookupA m a = some t2 → t2 ≤ t →
      updEarliest m a t = m) := by
  refine ⟨?_, ?_, ?_, ?_⟩
  · intro A B hB k
    refine ⟨?_, ?_, ?_⟩
    · intro tA tB hA2 hB2
      rw [merge_contributors, lookupA_mergeEarliest A B hB, hA2, hB2]
      rfl
    · intro tA hA2 hB2
      rw [merge_contributors, lookupA_mergeEarliest A B hB, hA2, hB2]
      rfl
    · intro tB hA2 hB2
      rw [merge_contributors, lookupA_mergeEarliest A B hB, hA2, hB2]
      rfl
  · intro A B hA hB k
    rw [merge_contributors, merge_contributors, lookupA_mergeEarliest A B hB,
      lookupA_mergeEarliest B A hA, ominO_comm]
  · intro A B C hB hC k
    have hBC : nodupKeys (mergeEarliest B C) := by
      unfold mergeEarliest
      exact nodupKeys_foldl_updEarliest _ _ hB
    rw [merge_contributors, merge_contributors,
      lookupA_mergeEarliest _ C hC, merge_contributors,
      lookupA_mergeEarliest A B hB, merge_contributors,
      lookupA_mergeEarliest A _ hBC, lookupA_mergeEarliest B C hC, ominO_assoc]
  · intro m a t t2 hl hle
    simp only [updEarliest, hl]
    rw [if_neg (not_lt.mpr hle)]

/-- C5 witness: "alice" with a later date in the base map and an earlier
date in the merged-in map keeps the earlier date. -/
theorem spec_C5_witness :
    lookupA (merge_contributors [("alice", mkDT 2023 5 1 0 0 0)]
        [("alice", mkDT 2022 2 1 0 0 0)]) "alice" =
      some (min (mkDT 2023 5 1 0 0 0) (mkDT 2022 2 1 0 0 0)) := by
  have h := ((spec_C5_earliest_merge).1 [("alice", mkDT 2023 5 1 0 0 0)]
    [("alice", mkDT 2022 2 1 0 0 0)] (by unfold nodupKeys keysA; decide)
    "alice").1 (mkDT 2023 5 1 0 0 0) (mkDT 2022 2 1 0 0 0) rfl rfl
  exact h

end ContribMetrics
